import Mathlib

/-!
Verification of the transactional runtime core of a differential Datalog
engine (`src/rust/template/differential_datalog/src/program/mod.rs`).

The Rust code is shallowly embedded:
* the opaque value type `DDValue` becomes a type parameter `V` with decidable
  equality;
* `FnvHashMap<DDValue, isize>` (delta sets / multisets) becomes an association
  list `List (V × Int)`; hash maps are unordered, so all properties are stated
  through lookups and counts;
* `FnvHashSet<DDValue>` becomes a `List V` used as a set;
* `FnvHashMap<DDValue, DDValue>` (indexed relations) becomes `List (V × V)`;
* fallible Rust functions returning `Response<X> = Result<X, String>` become
  `Except String` computations; `&mut self` methods on `RunningProgram`
  return the new state next to the `Except` result;
* the in-place fallible `Mutator` trait object (external to this file's
  source) is embedded as a pure function `V → Option V`, `none` meaning the
  mutator reported an error;
* worker channels: sending is modelled as appending to a message log
  (`sent`); crossbeam channels are unbounded so sends do not block, and the
  model assumes the transport itself does not fail.  Query replies, whose
  content the driver inspects, are passed in explicitly.
-/

namespace DDlog

/-- `pub type RelId = usize;` -/
abbrev RelId := Nat

/-- `pub type ArrId = (RelId, usize);` -/
abbrev ArrId := RelId × Nat

/-- Timestamp type (`TS`). -/
abbrev TS := Nat

/-! ## Delta sets

`pub type DeltaSet = FnvHashMap<DDValue, isize>;`, embedded as an association
list from values to signed counts. -/

variable {V : Type}

/-- Embedding of `FnvHashMap<DDValue, isize>`. -/
abbrev DeltaSet (V : Type) := List (V × Int)

/-- Lookup of the stored weight of `x` (`ds.get(&x)`). -/
def dsLookup [DecidableEq V] (ds : DeltaSet V) (x : V) : Option Int :=
  (ds.find? (fun p => decide (p.1 = x))).map (·.2)

/-- The count of `x` in a delta set, reading an absent entry as 0. -/
def dsCount [DecidableEq V] (ds : DeltaSet V) (x : V) : Int :=
  (dsLookup ds x).getD 0

/-- Remove the entry of `x` (`oe.remove_entry()`). -/
def dsErase [DecidableEq V] (ds : DeltaSet V) (x : V) : DeltaSet V :=
  ds.filter (fun p => decide (p.1 ≠ x))

/-- Overwrite the weight stored for `x` (`*v = w` through the occupied entry). -/
def dsSet [DecidableEq V] (ds : DeltaSet V) (x : V) (w : Int) : DeltaSet V :=
  ds.map (fun p => if p.1 = x then (x, w) else p)

/-- `RunningProgram::delta_inc`: increment the counter associated with value
`x` in the delta-set; an entry holding `-1` is removed instead of being set
to zero. -/
def delta_inc [DecidableEq V] (ds : DeltaSet V) (x : V) : DeltaSet V :=
  match dsLookup ds x with
  | some w => if w = -1 then dsErase ds x else dsSet ds x (w + 1)
  | none => (x, 1) :: ds

/-- `RunningProgram::delta_dec`: reverse of `delta_inc`. -/
def delta_dec [DecidableEq V] (ds : DeltaSet V) (x : V) : DeltaSet V :=
  match dsLookup ds x with
  | some w => if w = 1 then dsErase ds x else dsSet ds x (w - 1)
  | none => (x, -1) :: ds

/-- Association-list well-formedness: keys are pairwise distinct (hash-map
representation invariant). -/
def NodupKeys {α β : Type _} (l : List (α × β)) : Prop := (l.map Prod.fst).Nodup

/-- No entry stores weight zero (entries reaching zero are removed). -/
def ZeroFree (ds : DeltaSet V) : Prop := ∀ p ∈ ds, p.2 ≠ 0

/-! ## Updates

`pub enum Update<V>` (declared in the `update` module; constructors and the
`relid()` accessor are taken from their uses in `program/mod.rs`).  The
`Modify` mutator is embedded as a pure fallible function. -/

inductive Update (V : Type) where
  | Insert (relid : RelId) (v : V)
  | InsertOrUpdate (relid : RelId) (v : V)
  | DeleteValue (relid : RelId) (v : V)
  | DeleteKey (relid : RelId) (k : V)
  | Modify (relid : RelId) (k : V) (m : V → Option V)

/-- `Update::relid()`. -/
def Update.relid : Update V → RelId
  | .Insert relid _ => relid
  | .InsertOrUpdate relid _ => relid
  | .DeleteValue relid _ => relid
  | .DeleteKey relid _ => relid
  | .Modify relid _ _ => relid

/-! ## Relation instance stores -/

/-- `pub type ValSet = FnvHashSet<DDValue>;` -/
abbrev ValSet (V : Type) := List V

/-- `pub type ValMSet = DeltaSet;` -/
abbrev ValMSet (V : Type) := DeltaSet V

/-- `pub type IndexedValSet = FnvHashMap<DDValue, DDValue>;` -/
abbrev IndexedValSet (V : Type) := List (V × V)

/-- Lookup in an indexed store. -/
def imLookup [DecidableEq V] (s : IndexedValSet V) (k : V) : Option V :=
  (s.find? (fun p => decide (p.1 = k))).map (·.2)

/-- Remove the entry of key `k` from an indexed store. -/
def imErase [DecidableEq V] (s : IndexedValSet V) (k : V) : IndexedValSet V :=
  s.filter (fun p => decide (p.1 ≠ k))

/-- Overwrite the value stored at key `k` (`*oe.get_mut() = v`). -/
def imSet [DecidableEq V] (s : IndexedValSet V) (k : V) (v : V) : IndexedValSet V :=
  s.map (fun p => if p.1 = k then (k, v) else p)

/-- `enum RelationInstance`. -/
inductive RelationInstance (V : Type) where
  | Stream (delta : DeltaSet V)
  | Multiset (elements : ValMSet V) (delta : DeltaSet V)
  | Flat (elements : ValSet V) (delta : DeltaSet V)
  | Indexed (key_func : V → V) (elements : IndexedValSet V) (delta : DeltaSet V)

/-- `RelationInstance::delta`. -/
def RelationInstance.delta : RelationInstance V → DeltaSet V
  | .Stream d => d
  | .Multiset _ d => d
  | .Flat _ d => d
  | .Indexed _ _ d => d

/-- `RelationInstance::delta_mut` followed by `clear()` (used by
`delta_cleanup`). -/
def RelationInstance.clearDelta : RelationInstance V → RelationInstance V
  | .Stream _ => .Stream []
  | .Multiset e _ => .Multiset e []
  | .Flat e _ => .Flat e []
  | .Indexed kf e _ => .Indexed kf e []

/-! ## Per-variant update application

Each function mirrors the corresponding `RunningProgram` associated function:
it takes the relation's stores, the update, and the accumulated vector of
filtered updates, and either fails with a diagnostic string or returns the
new stores and accumulator. -/

/-- `RunningProgram::stream_update`. -/
def stream_update [DecidableEq V] (ds : DeltaSet V) (update : Update V)
    (updates : List (Update V)) : Except String (DeltaSet V × List (Update V)) :=
  match update with
  | .Insert _ v => .ok (delta_inc ds v, updates ++ [update])
  | .DeleteValue _ v => .ok (delta_dec ds v, updates ++ [update])
  | .InsertOrUpdate _ _ =>
      .error "Cannot perform insert_or_update operation on relation that does not have a primary key"
  | .DeleteKey _ _ =>
      .error "Cannot delete by key from relation that does not have a primary key"
  | .Modify _ _ _ =>
      .error "Cannot modify record in relation that does not have a primary key"

/-- `RunningProgram::mset_update`. -/
def mset_update [DecidableEq V] (s : ValMSet V) (ds : DeltaSet V) (upd : Update V)
    (updates : List (Update V)) :
    Except String (ValMSet V × DeltaSet V × List (Update V)) :=
  match upd with
  | .Insert _ v => .ok (delta_inc s v, delta_inc ds v, updates ++ [upd])
  | .DeleteValue _ v => .ok (delta_dec s v, delta_dec ds v, updates ++ [upd])
  | .InsertOrUpdate _ _ =>
      .error "Cannot perform insert_or_update operation on relation that does not have a primary key"
  | .DeleteKey _ _ =>
      .error "Cannot delete by key from relation that does not have a primary key"
  | .Modify _ _ _ =>
      .error "Cannot modify record in relation that does not have a primary key"

/-- `RunningProgram::set_update`: flat-set semantics; `ok` records whether the
update actually changed the relation, and the update is forwarded only in
that case. -/
def set_update [DecidableEq V] (s : ValSet V) (ds : DeltaSet V) (upd : Update V)
    (updates : List (Update V)) :
    Except String (ValSet V × DeltaSet V × List (Update V)) :=
  match upd with
  | .Insert _ v =>
      if v ∈ s then .ok (s, ds, updates)
      else .ok (v :: s, delta_inc ds v, updates ++ [upd])
  | .DeleteValue _ v =>
      if v ∈ s then
        .ok (s.filter (fun x => decide (x ≠ v)), delta_dec ds v, updates ++ [upd])
      else .ok (s, ds, updates)
  | .InsertOrUpdate _ _ =>
      .error "Cannot perform insert_or_update operation on relation that does not have a primary key"
  | .DeleteKey _ _ =>
      .error "Cannot delete by key from relation that does not have a primary key"
  | .Modify _ _ _ =>
      .error "Cannot modify record in relation that does not have a primary key"

/-- `RunningProgram::indexed_set_update`. -/
def indexed_set_update [DecidableEq V] (key_func : V → V) (s : IndexedValSet V)
    (ds : DeltaSet V) (upd : Update V) (updates : List (Update V)) :
    Except String (IndexedValSet V × DeltaSet V × List (Update V)) :=
  match upd with
  | .Insert relid v =>
      match imLookup s (key_func v) with
      | some _ => .error "Insert: duplicate key"
      | none =>
          .ok ((key_func v, v) :: s, delta_inc ds v,
            updates ++ [Update.Insert relid v])
  | .InsertOrUpdate relid v =>
      match imLookup s (key_func v) with
      | some old =>
          .ok (imSet s (key_func v) v, delta_inc (delta_dec ds old) v,
            updates ++ [Update.DeleteValue relid old, Update.Insert relid v])
      | none =>
          .ok ((key_func v, v) :: s, delta_inc ds v,
            updates ++ [Update.Insert relid v])
  | .DeleteValue relid v =>
      match imLookup s (key_func v) with
      | some old =>
          if old = v then
            .ok (imErase s (key_func v), delta_dec ds old,
              updates ++ [Update.DeleteValue relid v])
          else .error "DeleteValue: key exists but with a different value"
      | none => .error "DeleteValue: key not found"
  | .DeleteKey relid k =>
      match imLookup s k with
      | some old =>
          .ok (imErase s k, delta_dec ds old,
            updates ++ [Update.DeleteValue relid old])
      | none => .error "DeleteKey: key not found"
  | .Modify relid k m =>
      match imLookup s k with
      | some old =>
          match m old with
          | some new =>
              .ok (imSet s k new, delta_inc (delta_dec ds old) new,
                updates ++ [Update.DeleteValue relid old, Update.Insert relid new])
          | none => .error "Modify: mutator failed"
      | none => .error "Modify: key not found"

/-- `RunningProgram::apply_update` (dispatch over the relation variant; the
relation lookup by id is done by the caller in this embedding). -/
def apply_update_rel [DecidableEq V] (rel : RelationInstance V) (upd : Update V)
    (updates : List (Update V)) :
    Except String (RelationInstance V × List (Update V)) :=
  match rel with
  | .Stream delta =>
      (stream_update delta upd updates).map fun (d', us) => (.Stream d', us)
  | .Multiset elements delta =>
      (mset_update elements delta upd updates).map fun (e', d', us) =>
        (.Multiset e' d', us)
  | .Flat elements delta =>
      (set_update elements delta upd updates).map fun (e', d', us) =>
        (.Flat e' d', us)
  | .Indexed key_func elements delta =>
      (indexed_set_update key_func elements delta upd updates).map
        fun (e', d', us) => (.Indexed key_func e' d', us)

/-! ## Checked weights

`struct CheckedWeight { value: i32 }`: every arithmetic operation panics with
the fixed message "Weight overflow" when the exact result does not fit in a
signed 32-bit integer.  The `i32` payload is embedded as an `Int` constrained
to the `i32` range; `checked_add`/`checked_mul`/`checked_neg` return `none`
exactly when the exact result is out of range, and `expect` turns `none` into
the panic message. -/

/-- The `i32` range predicate. -/
def i32InRange (n : Int) : Prop := -(2 ^ 31) ≤ n ∧ n < 2 ^ 31

instance : DecidablePred i32InRange := fun n => by unfold i32InRange; infer_instance

/-- `i32::checked_add`. -/
def i32_checked_add (a b : Int) : Option Int :=
  if i32InRange (a + b) then some (a + b) else none

/-- `i32::checked_mul`. -/
def i32_checked_mul (a b : Int) : Option Int :=
  if i32InRange (a * b) then some (a * b) else none

/-- `i32::checked_neg`. -/
def i32_checked_neg (a : Int) : Option Int :=
  if i32InRange (-a) then some (-a) else none

/-- `Option::expect` specialised to the checked-weight panic: a `none` result
aborts the process with the fixed message "Weight overflow". -/
def weightExpect (o : Option Int) : Except String Int :=
  match o with
  | some r => .ok r
  | none => .error "Weight overflow"

/-- `impl Add for CheckedWeight` (also the body of `AddAssign`). -/
def CheckedWeight.add (a b : Int) : Except String Int :=
  weightExpect (i32_checked_add a b)

/-- `impl Mul for CheckedWeight`. -/
def CheckedWeight.mul (a b : Int) : Except String Int :=
  weightExpect (i32_checked_mul a b)

/-- `impl Neg for CheckedWeight`. -/
def CheckedWeight.neg (a : Int) : Except String Int :=
  weightExpect (i32_checked_neg a)

/-! ## Worker messages and replies -/

/-- `enum Msg` (messages sent to timely worker threads). -/
inductive Msg (V : Type) where
  | Update (updates : List (Update V)) (timestamp : TS)
  | Flush (advance_to : TS)
  | Query (arrid : ArrId) (k : Option V)
  | Stop

/-- `enum Reply` (messages received from worker threads).  `BTreeSet<DDValue>`
is embedded as `Finset V`. -/
inductive Reply (V : Type) where
  | FlushAck
  | QueryRes (res : Option (Finset V))

/-! ## The transaction driver (`struct RunningProgram`)

Worker channels are modelled by the `sent` log (the driver only appends to
the command channels) and the number of workers; the rotating
`worker_round_robbin` cursor is modelled by the index of the next worker in
the cycle. -/

structure RunningProgram (V : Type) where
  relations : List (RelId × RelationInstance V)
  transaction_in_progress : Bool
  need_to_flush : Bool
  timestamp : TS
  num_workers : Nat
  sent : List (Nat × Msg V)
  worker_round_robbin : Nat

namespace RunningProgram

variable [DecidableEq V]

/-- Lookup a relation instance by id (`self.relations.get(&relid)`). -/
def relGet (rels : List (RelId × RelationInstance V)) (relid : RelId) :
    Option (RelationInstance V) :=
  (rels.find? (fun p => decide (p.1 = relid))).map (·.2)

/-- Replace the relation instance stored under `relid`. -/
def relSet (rels : List (RelId × RelationInstance V)) (relid : RelId)
    (rel : RelationInstance V) : List (RelId × RelationInstance V) :=
  rels.map (fun p => if p.1 = relid then (relid, rel) else p)

/-- `RunningProgram::send`: push a message onto worker `worker_index`'s
channel (the unpark side effect has no observable state in the model). -/
def send (st : RunningProgram V) (worker_index : Nat) (msg : Msg V) :
    RunningProgram V :=
  { st with sent := st.sent ++ [(worker_index, msg)] }

/-- `RunningProgram::broadcast`: send a clone of the message to every worker
in order. -/
def broadcast (st : RunningProgram V) (msg : Msg V) : RunningProgram V :=
  (List.range st.num_workers).foldl (fun s i => send s i msg) st

/-- `RunningProgram::flush`: no-op unless `need_to_flush` is set; otherwise
broadcast `Flush { advance_to: ts + 1 }`, bump the timestamp, clear the flag
and wait for one `FlushAck` per worker (the barrier is assumed to succeed in
this embedding). -/
def flush (st : RunningProgram V) : RunningProgram V :=
  if st.need_to_flush then
    { broadcast st (Msg.Flush (st.timestamp + 1)) with
        timestamp := st.timestamp + 1
        need_to_flush := false }
  else st

/-- `RunningProgram::delta_cleanup`: clear the delta set of every relation. -/
def delta_cleanup (st : RunningProgram V) : RunningProgram V :=
  { st with relations := st.relations.map (fun p => (p.1, p.2.clearDelta)) }

/-- `RunningProgram::transaction_start`. -/
def transaction_start (st : RunningProgram V) :
    RunningProgram V × Except String Unit :=
  if st.transaction_in_progress then
    (st, .error "transaction already in progress")
  else ({ st with transaction_in_progress := true }, .ok ())

/-- `RunningProgram::transaction_commit`. -/
def transaction_commit (st : RunningProgram V) :
    RunningProgram V × Except String Unit :=
  if st.transaction_in_progress then
    let st := delta_cleanup (flush st)
    ({ st with transaction_in_progress := false }, .ok ())
  else (st, .error "transaction_commit: no transaction in progress")

/-- The validation loop of `apply_updates`: apply each update in order to its
input relation, accumulating filtered updates; stop at the first failing
update, retaining the mutations already made. -/
def upd_loop (inspect : Update V → Except String Unit)
    (rels : List (RelId × RelationInstance V)) (acc : List (Update V)) :
    List (Update V) →
      List (RelId × RelationInstance V) × List (Update V) × Option String
  | [] => (rels, acc, none)
  | u :: us =>
      match inspect u with
      | .error e => (rels, acc, some e)
      | .ok () =>
          match relGet rels u.relid with
          | none => (rels, acc, some "apply_update: unknown input relation")
          | some rel =>
              match apply_update_rel rel u acc with
              | .error e => (rels, acc, some e)
              | .ok (rel', acc') => upd_loop inspect (relSet rels u.relid rel') acc' us

/-- `filtered_updates.chunks(chunk_size)` (`chunk_size ≥ 1` in the caller). -/
def chunksOf : Nat → List α → List (List α)
  | _, [] => []
  | 0, l => [l]
  | n + 1, x :: xs =>
      (x :: xs).take (n + 1) :: chunksOf (n + 1) ((x :: xs).drop (n + 1))
termination_by n l => l.length
decreasing_by simp [List.length_drop]; omega

/-- `RunningProgram::apply_updates`: validate all updates against the input
relation stores, then dispatch the filtered updates to the workers in
round-robin chunks and mark the need to flush. -/
def apply_updates (st : RunningProgram V) (updates : List (Update V))
    (inspect : Update V → Except String Unit) :
    RunningProgram V × Except String Unit :=
  if st.transaction_in_progress then
    match upd_loop inspect st.relations [] updates with
    | (rels', _, some e) => ({ st with relations := rels' }, .error e)
    | (rels', filtered_updates, none) =>
        let st := { st with relations := rels' }
        if filtered_updates.isEmpty then (st, .ok ())
        else
          let chunk_size := max (filtered_updates.length / st.num_workers) 5000
          let chunks := chunksOf chunk_size filtered_updates
          let msgs := (chunks.enum.map fun (i, chunk) =>
            (((st.worker_round_robbin + i) % st.num_workers),
              Msg.Update chunk st.timestamp))
          ({ st with
              sent := st.sent ++ msgs
              worker_round_robbin :=
                (st.worker_round_robbin + chunks.length) % st.num_workers
              need_to_flush := true }, .ok ())
  else (st, .error "apply_updates: no transaction in progress")

/-- `RunningProgram::delta_undo_updates`: synthesize the inverse update
stream of one relation's delta set -- `w` deletes for an entry of positive
weight `w`, then `|w|` inserts for an entry of negative weight. -/
def delta_undo_updates (relid : RelId) (ds : DeltaSet V) : List (Update V) :=
  (ds.flatMap fun (k, w) =>
    if 0 ≤ w then List.replicate w.toNat (Update.DeleteValue relid k) else [])
  ++
  (ds.flatMap fun (k, w) =>
    if 0 ≤ w then [] else List.replicate (-w).toNat (Update.Insert relid k))

/-- `RunningProgram::delta_undo`: apply the synthesized inverse updates of
every relation as a normal update batch and flush. -/
def delta_undo (st : RunningProgram V) : RunningProgram V × Except String Unit :=
  let updates := st.relations.flatMap fun q =>
    delta_undo_updates q.1 q.2.delta
  match apply_updates st updates (fun _ => .ok ()) with
  | (st', .ok ()) => (flush st', .ok ())
  | (st', .error e) => (st', .error e)

/-- `RunningProgram::transaction_rollback`. -/
def transaction_rollback (st : RunningProgram V) :
    RunningProgram V × Except String Unit :=
  if st.transaction_in_progress then
    match delta_undo (flush st) with
    | (st', .ok ()) => ({ st' with transaction_in_progress := false }, .ok ())
    | (st', .error e) => (st', .error e)
  else (st, .error "transaction_rollback: no transaction in progress")

/-- The reply-consuming loop of `_query_arrangement`: receive one reply per
worker, merging returned sets, remembering whether some worker did not
recognize the arrangement; an unexpected reply kind fails immediately.  The
returned `Nat` counts the replies consumed. -/
def query_loop : List (Reply V) → Finset V → Bool → Nat →
    Except (String × Nat) (Finset V × Bool × Nat)
  | [], res, unknown, consumed => .ok (res, unknown, consumed)
  | reply :: rest, res, unknown, consumed =>
      match reply with
      | .QueryRes (some vals) =>
          if vals = ∅ then query_loop rest res unknown (consumed + 1)
          else if res = ∅ then query_loop rest vals unknown (consumed + 1)
          else query_loop rest (res ∪ vals) unknown (consumed + 1)
      | .QueryRes none => query_loop rest res true (consumed + 1)
      | .FlushAck =>
          .error ("query_arrangement: unexpected reply from worker", consumed + 1)

/-- `RunningProgram::_query_arrangement`: broadcast the query, then receive
one reply per worker (`replies`); fail with an unknown-index error if any
worker answered `QueryRes(None)`, but only after consuming every reply. -/
def _query_arrangement (st : RunningProgram V) (arrid : ArrId) (k : Option V)
    (replies : List (Reply V)) :
    RunningProgram V × Except String (Finset V) × Nat :=
  let st := broadcast st (Msg.Query arrid k)
  match query_loop replies ∅ false 0 with
  | .error (e, consumed) => (st, .error e, consumed)
  | .ok (res, unknown, consumed) =>
      if unknown then (st, .error "query_arrangement: unknown index", consumed)
      else (st, .ok res, consumed)

end RunningProgram

/-! ## Basic lemmas about delta sets -/

section DeltaLemmas

variable [DecidableEq V]

theorem dsLookup_nil (x : V) : dsLookup ([] : DeltaSet V) x = none := rfl

theorem dsLookup_cons (p : V × Int) (ds : DeltaSet V) (x : V) :
    dsLookup (p :: ds) x = if p.1 = x then some p.2 else dsLookup ds x := by
  by_cases h : p.1 = x <;> simp [dsLookup, List.find?_cons, h]

theorem dsCount_nil (x : V) : dsCount ([] : DeltaSet V) x = 0 := rfl

theorem dsCount_cons (p : V × Int) (ds : DeltaSet V) (x : V) :
    dsCount (p :: ds) x = if p.1 = x then p.2 else dsCount ds x := by
  by_cases h : p.1 = x <;> simp [dsCount, dsLookup_cons, h]

theorem dsLookup_eq_none_iff {ds : DeltaSet V} {x : V} :
    dsLookup ds x = none ↔ x ∉ ds.map Prod.fst := by
  induction ds with
  | nil => simp [dsLookup_nil]
  | cons p tl ih =>
      rw [dsLookup_cons]
      by_cases h : p.1 = x
      · simp [h]
      · simp only [h, if_false, ih, List.map_cons, List.mem_cons]
        constructor
        · intro hx hc
          rcases hc with hc | hc
          · exact h hc.symm
          · exact hx hc
        · intro hx
          exact fun hc => hx (Or.inr hc)

theorem dsErase_cons (p : V × Int) (ds : DeltaSet V) (x : V) :
    dsErase (p :: ds) x =
      if p.1 = x then dsErase ds x else p :: dsErase ds x := by
  by_cases h : p.1 = x <;> simp [dsErase, h]

theorem dsLookup_dsErase_self (ds : DeltaSet V) (x : V) :
    dsLookup (dsErase ds x) x = none := by
  induction ds with
  | nil => rfl
  | cons p ds ih =>
      by_cases h : p.1 = x <;> simp [dsErase_cons, h, dsLookup_cons, ih]

theorem dsLookup_dsErase_ne {x y : V} (ds : DeltaSet V) (h : y ≠ x) :
    dsLookup (dsErase ds x) y = dsLookup ds y := by
  induction ds with
  | nil => rfl
  | cons p ds ih =>
      by_cases hp : p.1 = x
      · have hxy : x ≠ y := fun he => h he.symm
        simp [dsErase_cons, hp, dsLookup_cons, hxy, ih]
      · simp [dsErase_cons, hp, dsLookup_cons, ih]

theorem dsSet_cons (p : V × Int) (ds : DeltaSet V) (x : V) (w : Int) :
    dsSet (p :: ds) x w =
      (if p.1 = x then (x, w) else p) :: dsSet ds x w := by
  simp [dsSet]

theorem dsLookup_dsSet_self (ds : DeltaSet V) (x : V) (w : Int) :
    dsLookup (dsSet ds x w) x = (dsLookup ds x).map (fun _ => w) := by
  induction ds with
  | nil => rfl
  | cons p ds ih =>
      by_cases h : p.1 = x <;> simp [dsSet_cons, h, dsLookup_cons, ih]

theorem dsLookup_dsSet_ne {x y : V} (ds : DeltaSet V) (w : Int) (h : y ≠ x) :
    dsLookup (dsSet ds x w) y = dsLookup ds y := by
  induction ds with
  | nil => rfl
  | cons p ds ih =>
      by_cases hp : p.1 = x
      · have hxy : x ≠ y := fun he => h he.symm
        have : p.1 ≠ y := by rw [hp]; exact hxy
        simp [dsSet_cons, hp, dsLookup_cons, this, hxy, ih]
      · simp [dsSet_cons, hp, dsLookup_cons, ih]

theorem dsCount_delta_inc_self (ds : DeltaSet V) (x : V) :
    dsCount (delta_inc ds x) x = dsCount ds x + 1 := by
  unfold delta_inc
  cases h : dsLookup ds x with
  | none => simp [dsCount, dsLookup_cons, h]
  | some w =>
      by_cases hw : w = -1
      · simp [hw, dsCount, dsLookup_dsErase_self, h]
      · simp [hw, dsCount, dsLookup_dsSet_self, h]

theorem dsCount_delta_inc_ne {x y : V} (ds : DeltaSet V) (h : y ≠ x) :
    dsCount (delta_inc ds x) y = dsCount ds y := by
  unfold delta_inc
  cases hx : dsLookup ds x with
  | none =>
      have : x ≠ y := fun he => h he.symm
      simp [dsCount, dsLookup_cons, this]
  | some w =>
      by_cases hw : w = -1
      · simp [hw, dsCount, dsLookup_dsErase_ne ds h]
      · simp [hw, dsCount, dsLookup_dsSet_ne ds _ h]

theorem dsCount_delta_dec_self (ds : DeltaSet V) (x : V) :
    dsCount (delta_dec ds x) x = dsCount ds x - 1 := by
  unfold delta_dec
  cases h : dsLookup ds x with
  | none => simp [dsCount, dsLookup_cons, h]
  | some w =>
      by_cases hw : w = 1
      · simp [hw, dsCount, dsLookup_dsErase_self, h]
      · simp [hw, dsCount, dsLookup_dsSet_self, h]

theorem dsCount_delta_dec_ne {x y : V} (ds : DeltaSet V) (h : y ≠ x) :
    dsCount (delta_dec ds x) y = dsCount ds y := by
  unfold delta_dec
  cases hx : dsLookup ds x with
  | none =>
      have : x ≠ y := fun he => h he.symm
      simp [dsCount, dsLookup_cons, this]
  | some w =>
      by_cases hw : w = 1
      · simp [hw, dsCount, dsLookup_dsErase_ne ds h]
      · simp [hw, dsCount, dsLookup_dsSet_ne ds _ h]

theorem ZeroFree.dsErase_zf {ds : DeltaSet V} (hz : ZeroFree ds) (x : V) :
    ZeroFree (DDlog.dsErase ds x) := by
  intro p hp
  exact hz p (List.mem_of_mem_filter hp)

theorem ZeroFree.dsSet {ds : DeltaSet V} (hz : ZeroFree ds) {x : V} {w : Int}
    (hw : w ≠ 0) : ZeroFree (DDlog.dsSet ds x w) := by
  intro p hp
  simp only [DDlog.dsSet, List.mem_map] at hp
  obtain ⟨q, hq, hfq⟩ := hp
  by_cases h : q.1 = x
  · simp [h] at hfq; subst hfq; exact hw
  · simp [h] at hfq; subst hfq; exact hz q hq

theorem ZeroFree.delta_inc_zf {ds : DeltaSet V} (hz : ZeroFree ds) (x : V) :
    ZeroFree (DDlog.delta_inc ds x) := by
  unfold DDlog.delta_inc
  cases h : dsLookup ds x with
  | none =>
      intro p hp
      rcases List.mem_cons.mp hp with rfl | hm
      · simp
      · exact hz p hm
  | some w =>
      by_cases hw : w = -1
      · simpa [hw] using hz.dsErase_zf x
      · simp only [hw, if_false]
        exact hz.dsSet (by omega)

theorem ZeroFree.delta_dec_zf {ds : DeltaSet V} (hz : ZeroFree ds) (x : V) :
    ZeroFree (DDlog.delta_dec ds x) := by
  unfold DDlog.delta_dec
  cases h : dsLookup ds x with
  | none =>
      intro p hp
      rcases List.mem_cons.mp hp with rfl | hm
      · simp
      · exact hz p hm
  | some w =>
      by_cases hw : w = 1
      · simpa [hw] using hz.dsErase_zf x
      · simp only [hw, if_false]
        exact hz.dsSet (by omega)

theorem dsErase_keys_sublist (ds : DeltaSet V) (x : V) :
    ((DDlog.dsErase ds x).map Prod.fst).Sublist (ds.map Prod.fst) :=
  (List.filter_sublist ds).map Prod.fst

theorem dsSet_keys (ds : DeltaSet V) (x : V) (w : Int) :
    (DDlog.dsSet ds x w).map Prod.fst = ds.map Prod.fst := by
  induction ds with
  | nil => rfl
  | cons p ds ih =>
      by_cases h : p.1 = x <;> simp [dsSet_cons, h, ih]

theorem NodupKeys.dsErase_nk {ds : DeltaSet V} (hn : NodupKeys ds) (x : V) :
    NodupKeys (DDlog.dsErase ds x) :=
  hn.sublist (dsErase_keys_sublist ds x)

theorem NodupKeys.delta_inc_nk {ds : DeltaSet V} (hn : NodupKeys ds) (x : V) :
    NodupKeys (DDlog.delta_inc ds x) := by
  unfold DDlog.delta_inc
  cases h : dsLookup ds x with
  | none =>
      have hx : x ∉ ds.map Prod.fst := dsLookup_eq_none_iff.mp h
      exact List.Nodup.cons hx hn
  | some w =>
      by_cases hw : w = -1
      · simpa [hw] using hn.dsErase_nk x
      · simpa [hw, NodupKeys, dsSet_keys] using hn

theorem NodupKeys.delta_dec_nk {ds : DeltaSet V} (hn : NodupKeys ds) (x : V) :
    NodupKeys (DDlog.delta_dec ds x) := by
  unfold DDlog.delta_dec
  cases h : dsLookup ds x with
  | none =>
      have hx : x ∉ ds.map Prod.fst := dsLookup_eq_none_iff.mp h
      exact List.Nodup.cons hx hn
  | some w =>
      by_cases hw : w = 1
      · simpa [hw] using hn.dsErase_nk x
      · simpa [hw, NodupKeys, dsSet_keys] using hn

/-- A delta set without zero entries in which every value counts zero is
empty. -/
theorem eq_nil_of_forall_dsCount_zero {ds : DeltaSet V} (hz : ZeroFree ds)
    (h : ∀ v, dsCount ds v = 0) : ds = [] := by
  cases ds with
  | nil => rfl
  | cons p tl =>
      exfalso
      have := h p.1
      rw [dsCount_cons] at this
      simp at this
      exact hz p (List.mem_cons_self _ _) this

/-- With distinct keys, the count of a value held by an entry is that
entry's weight. -/
theorem dsCount_eq_of_mem {ds : DeltaSet V} (hn : NodupKeys ds) {v : V}
    {w : Int} (hm : (v, w) ∈ ds) : dsCount ds v = w := by
  induction ds with
  | nil => cases hm
  | cons p tl ih =>
      rcases List.mem_cons.mp hm with rfl | hm'
      · simp [dsCount_cons]
      · have hk : v ∈ tl.map Prod.fst := List.mem_map.mpr ⟨(v, w), hm', rfl⟩
        have hp : p.1 ≠ v := by
          intro he
          exact (List.nodup_cons.mp hn).1 (he ▸ hk)
        rw [dsCount_cons, if_neg hp]
        exact ih (List.nodup_cons.mp hn).2 hm'

/-- A value absent from the keys counts zero. -/
theorem dsCount_of_not_mem_keys {ds : DeltaSet V} {v : V}
    (h : v ∉ ds.map Prod.fst) : dsCount ds v = 0 := by
  simp [dsCount, dsLookup_eq_none_iff.mpr h]

end DeltaLemmas

/-! ## Basic lemmas about indexed stores -/

section IndexedLemmas

variable [DecidableEq V]

theorem imLookup_cons (p : V × V) (s : IndexedValSet V) (k : V) :
    imLookup (p :: s) k = if p.1 = k then some p.2 else imLookup s k := by
  by_cases h : p.1 = k <;> simp [imLookup, List.find?_cons, h]

theorem imSet_cons (p : V × V) (s : IndexedValSet V) (k v : V) :
    imSet (p :: s) k v = (if p.1 = k then (k, v) else p) :: imSet s k v := by
  simp [imSet]

theorem imErase_cons (p : V × V) (s : IndexedValSet V) (k : V) :
    imErase (p :: s) k =
      if p.1 = k then imErase s k else p :: imErase s k := by
  by_cases h : p.1 = k <;> simp [imErase, h]

theorem imLookup_imSet_self (s : IndexedValSet V) (k : V) (v : V) :
    imLookup (imSet s k v) k = (imLookup s k).map (fun _ => v) := by
  induction s with
  | nil => rfl
  | cons p s ih =>
      by_cases h : p.1 = k <;> simp [imSet_cons, h, imLookup_cons, ih]

theorem imLookup_imSet_ne {k k' : V} (s : IndexedValSet V) (v : V)
    (h : k' ≠ k) : imLookup (imSet s k v) k' = imLookup s k' := by
  induction s with
  | nil => rfl
  | cons p s ih =>
      by_cases hp : p.1 = k
      · have hkk : k ≠ k' := fun he => h he.symm
        simp [imSet_cons, hp, imLookup_cons, hkk, ih]
      · simp [imSet_cons, hp, imLookup_cons, ih]

theorem imLookup_imErase_self (s : IndexedValSet V) (k : V) :
    imLookup (imErase s k) k = none := by
  induction s with
  | nil => rfl
  | cons p s ih =>
      by_cases h : p.1 = k <;> simp [imErase_cons, h, imLookup_cons, ih]

theorem imLookup_imErase_ne {k k' : V} (s : IndexedValSet V) (h : k' ≠ k) :
    imLookup (imErase s k) k' = imLookup s k' := by
  induction s with
  | nil => rfl
  | cons p s ih =>
      by_cases hp : p.1 = k
      · have hkk : k ≠ k' := fun he => h he.symm
        simp [imErase_cons, hp, imLookup_cons, hkk, ih]
      · simp [imErase_cons, hp, imLookup_cons, ih]

end IndexedLemmas

/-! ## Claim theorems: flat-set updates, indexed updates, checked weights -/

section ClaimsBasic

variable [DecidableEq V]

/-- **C3.** For a flat-set input relation (`RunningProgram::set_update`):
an `Insert` of a value already in the element set is a no-op that leaves
elements and delta unchanged and forwards nothing; an `Insert` of an absent
value adds it to the elements and increments its delta count; a
`DeleteValue` of an absent value is a no-op; a `DeleteValue` of a present
value removes it and decrements its delta count. -/
theorem flat_set_update_semantics (s : ValSet V) (ds : DeltaSet V)
    (relid : RelId) (v : V) (acc : List (Update V)) :
    (v ∈ s → set_update s ds (Update.Insert relid v) acc = .ok (s, ds, acc)) ∧
    (v ∉ s →
      ∃ s' ds',
        set_update s ds (Update.Insert relid v) acc =
          .ok (s', ds', acc ++ [Update.Insert relid v]) ∧
        (∀ x, x ∈ s' ↔ x ∈ s ∨ x = v) ∧
        dsCount ds' v = dsCount ds v + 1 ∧
        (∀ y, y ≠ v → dsCount ds' y = dsCount ds y)) ∧
    (v ∉ s → set_update s ds (Update.DeleteValue relid v) acc = .ok (s, ds, acc)) ∧
    (v ∈ s →
      ∃ s' ds',
        set_update s ds (Update.DeleteValue relid v) acc =
          .ok (s', ds', acc ++ [Update.DeleteValue relid v]) ∧
        (∀ x, x ∈ s' ↔ x ∈ s ∧ x ≠ v) ∧
        dsCount ds' v = dsCount ds v - 1 ∧
        (∀ y, y ≠ v → dsCount ds' y = dsCount ds y)) := by
  refine ⟨fun hv => by simp [set_update, hv], fun hv => ?_,
    fun hv => by simp [set_update, hv], fun hv => ?_⟩
  · refine ⟨v :: s, delta_inc ds v, by simp [set_update, hv], ?_,
      dsCount_delta_inc_self ds v, fun y hy => dsCount_delta_inc_ne ds hy⟩
    intro x
    simp [or_comm]
  · refine ⟨s.filter (fun x => decide (x ≠ v)), delta_dec ds v,
      by simp [set_update, hv], ?_,
      dsCount_delta_dec_self ds v, fun y hy => dsCount_delta_dec_ne ds hy⟩
    intro x
    simp [List.mem_filter]

/-- Witness for `flat_set_update_semantics` at a concrete state. -/
theorem flat_set_update_semantics_witness :
    set_update [0, 1] [] (Update.Insert 7 (0 : Nat)) [] = .ok ([0, 1], [], []) ∧
    set_update [0, 1] [] (Update.DeleteValue 7 (2 : Nat)) [] =
      .ok ([0, 1], [], []) := by
  have h := flat_set_update_semantics (V := Nat) [0, 1] [] 7 0 []
  have h2 := flat_set_update_semantics (V := Nat) [0, 1] [] 7 2 []
  exact ⟨h.1 (by decide), h2.2.2.1 (by decide)⟩

/-- **C5.** For an indexed input relation
(`RunningProgram::indexed_set_update`): an `InsertOrUpdate` whose key is
already present emits a `DeleteValue` of the stored old value followed by an
`Insert` of the new value, decrements the old value's delta count and
increments the new value's, and replaces the stored value; when the key is
absent it behaves exactly like `Insert`. -/
theorem indexed_insert_or_update_semantics (key_func : V → V)
    (s : IndexedValSet V) (ds : DeltaSet V) (relid : RelId) (v old : V)
    (acc : List (Update V)) :
    (imLookup s (key_func v) = some old →
      ∃ s' ds',
        indexed_set_update key_func s ds (Update.InsertOrUpdate relid v) acc =
          .ok (s', ds',
            acc ++ [Update.DeleteValue relid old, Update.Insert relid v]) ∧
        imLookup s' (key_func v) = some v ∧
        (∀ k, k ≠ key_func v → imLookup s' k = imLookup s k) ∧
        (∀ x, dsCount ds' x =
          dsCount ds x - (if x = old then 1 else 0) +
            (if x = v then 1 else 0))) ∧
    (imLookup s (key_func v) = none →
      indexed_set_update key_func s ds (Update.InsertOrUpdate relid v) acc =
        indexed_set_update key_func s ds (Update.Insert relid v) acc) := by
  constructor
  · intro hl
    refine ⟨imSet s (key_func v) v, delta_inc (delta_dec ds old) v,
      by simp [indexed_set_update, hl], ?_,
      fun k hk => imLookup_imSet_ne s v hk, ?_⟩
    · rw [imLookup_imSet_self, hl]; rfl
    · intro x
      by_cases hxv : x = v <;> by_cases hxo : x = old
      · subst hxv; subst hxo
        rw [dsCount_delta_inc_self, dsCount_delta_dec_self]
        simp
      · subst hxv
        rw [dsCount_delta_inc_self, dsCount_delta_dec_ne ds (by exact hxo)]
        simp [hxo]
      · subst hxo
        rw [dsCount_delta_inc_ne _ hxv, dsCount_delta_dec_self]
        simp [hxv]
      · rw [dsCount_delta_inc_ne _ hxv, dsCount_delta_dec_ne ds hxo]
        simp [hxv, hxo]
  · intro hl
    simp [indexed_set_update, hl]

/-- Witness for `indexed_insert_or_update_semantics`: replace the value
stored under key 1 and the absent-key case. -/
theorem indexed_insert_or_update_semantics_witness :
    (∃ s' ds',
      indexed_set_update (fun n => n % 10) [(1, 11)] [] (Update.InsertOrUpdate 3 (21 : Nat)) [] =
        .ok (s', ds', [Update.DeleteValue 3 11, Update.Insert 3 21]) ∧
      imLookup s' 1 = some 21 ∧
      (∀ k, k ≠ 1 → imLookup s' k = imLookup [(1, 11)] k) ∧
      (∀ x, dsCount ds' x =
        dsCount ([] : DeltaSet Nat) x - (if x = 11 then 1 else 0) +
          (if x = 21 then 1 else 0))) ∧
    indexed_set_update (fun n => n % 10) ([] : IndexedValSet Nat) []
        (Update.InsertOrUpdate 3 21) [] =
      indexed_set_update (fun n => n % 10) [] [] (Update.Insert 3 21) [] := by
  constructor
  · have h := (indexed_insert_or_update_semantics (V := Nat) (fun n => n % 10)
      [(1, 11)] [] 3 21 11 []).1 (by decide)
    simpa using h
  · exact (indexed_insert_or_update_semantics (V := Nat) (fun n => n % 10)
      [] [] 3 21 11 []).2 (by decide)

/-- **C9.** In the checked weight variant (`CheckedWeight`), each operation
(addition, multiplication, negation) aborts with the fixed message
"Weight overflow" exactly when the exact integer result is not representable
as a signed 32-bit integer, and returns the exact result otherwise. -/
theorem checked_weight_overflow (a b : Int) (ha : i32InRange a)
    (hb : i32InRange b) :
    (¬i32InRange (a + b) → CheckedWeight.add a b = .error "Weight overflow") ∧
    (i32InRange (a + b) → CheckedWeight.add a b = .ok (a + b)) ∧
    (¬i32InRange (a * b) → CheckedWeight.mul a b = .error "Weight overflow") ∧
    (i32InRange (a * b) → CheckedWeight.mul a b = .ok (a * b)) ∧
    (¬i32InRange (-a) → CheckedWeight.neg a = .error "Weight overflow") ∧
    (i32InRange (-a) → CheckedWeight.neg a = .ok (-a)) := by
  refine ⟨fun h => ?_, fun h => ?_, fun h => ?_, fun h => ?_, fun h => ?_,
    fun h => ?_⟩ <;>
    simp [CheckedWeight.add, CheckedWeight.mul, CheckedWeight.neg,
      i32_checked_add, i32_checked_mul, i32_checked_neg, weightExpect, h]

/-- Witness for `checked_weight_overflow`: `(2^31 - 1) + 1` overflows and
aborts, while `1 + 1` returns 2. -/
theorem checked_weight_overflow_witness :
    CheckedWeight.add (2 ^ 31 - 1) 1 = .error "Weight overflow" ∧
    CheckedWeight.add 1 1 = .ok 2 := by
  constructor
  · exact (checked_weight_overflow (2 ^ 31 - 1) 1 (by decide) (by decide)).1
      (by decide)
  · exact (checked_weight_overflow 1 1 (by decide) (by decide)).2.1 (by decide)

end ClaimsBasic

/-! ## Field-preservation lemmas for the driver -/

namespace RunningProgram

variable [DecidableEq V]

theorem foldl_send_fields (ws : List Nat) (m : Msg V) (st : RunningProgram V) :
    (ws.foldl (fun s i => send s i m) st).relations = st.relations ∧
    (ws.foldl (fun s i => send s i m) st).transaction_in_progress =
      st.transaction_in_progress ∧
    (ws.foldl (fun s i => send s i m) st).need_to_flush = st.need_to_flush ∧
    (ws.foldl (fun s i => send s i m) st).timestamp = st.timestamp ∧
    (ws.foldl (fun s i => send s i m) st).num_workers = st.num_workers ∧
    (ws.foldl (fun s i => send s i m) st).worker_round_robbin =
      st.worker_round_robbin := by
  induction ws generalizing st with
  | nil => exact ⟨rfl, rfl, rfl, rfl, rfl, rfl⟩
  | cons w ws ih => simpa [send] using ih _

theorem broadcast_relations (st : RunningProgram V) (m : Msg V) :
    (broadcast st m).relations = st.relations :=
  (foldl_send_fields _ m st).1

theorem broadcast_tip (st : RunningProgram V) (m : Msg V) :
    (broadcast st m).transaction_in_progress = st.transaction_in_progress :=
  (foldl_send_fields _ m st).2.1

theorem broadcast_ntf (st : RunningProgram V) (m : Msg V) :
    (broadcast st m).need_to_flush = st.need_to_flush :=
  (foldl_send_fields _ m st).2.2.1

theorem broadcast_timestamp (st : RunningProgram V) (m : Msg V) :
    (broadcast st m).timestamp = st.timestamp :=
  (foldl_send_fields _ m st).2.2.2.1

theorem broadcast_num_workers (st : RunningProgram V) (m : Msg V) :
    (broadcast st m).num_workers = st.num_workers :=
  (foldl_send_fields _ m st).2.2.2.2.1

theorem flush_relations (st : RunningProgram V) :
    (flush st).relations = st.relations := by
  unfold flush
  by_cases h : st.need_to_flush <;> simp [h, broadcast_relations]

theorem flush_tip (st : RunningProgram V) :
    (flush st).transaction_in_progress = st.transaction_in_progress := by
  unfold flush
  by_cases h : st.need_to_flush <;> simp [h, broadcast_tip]

theorem flush_timestamp (st : RunningProgram V) :
    (flush st).timestamp =
      if st.need_to_flush then st.timestamp + 1 else st.timestamp := by
  unfold flush
  by_cases h : st.need_to_flush <;> simp [h]

theorem flush_ntf (st : RunningProgram V) :
    (flush st).need_to_flush = false := by
  unfold flush
  by_cases h : st.need_to_flush <;> simp [h]

theorem flush_num_workers (st : RunningProgram V) :
    (flush st).num_workers = st.num_workers := by
  unfold flush
  by_cases h : st.need_to_flush <;> simp [h, broadcast_num_workers]

theorem delta_cleanup_fields (st : RunningProgram V) :
    (delta_cleanup st).transaction_in_progress = st.transaction_in_progress ∧
    (delta_cleanup st).timestamp = st.timestamp ∧
    (delta_cleanup st).need_to_flush = st.need_to_flush :=
  ⟨rfl, rfl, rfl⟩

end RunningProgram

/-! ## Claim C1 (corrected): commit and the timestamp -/

section ClaimC1

variable [DecidableEq V]

open RunningProgram

/-- **C1 as stated is false**: committing a transaction that dispatched no
updates (`need_to_flush` unset, so `flush` is a no-op) succeeds and leaves
the timestamp unchanged. -/
theorem commit_without_updates_keeps_timestamp :
    (RunningProgram.transaction_commit
      { relations := ([] : List (RelId × RelationInstance Nat))
        transaction_in_progress := true
        need_to_flush := false
        timestamp := 5
        num_workers := 1
        sent := []
        worker_round_robbin := 0 }).2 = .ok () ∧
    (RunningProgram.transaction_commit
      { relations := ([] : List (RelId × RelationInstance Nat))
        transaction_in_progress := true
        need_to_flush := false
        timestamp := 5
        num_workers := 1
        sent := []
        worker_round_robbin := 0 }).1.timestamp = 5 := by
  exact ⟨rfl, rfl⟩

/-- **C1 (amended).** A `transaction_commit` on an open transaction always
succeeds; the timestamp strictly increases exactly when the transaction
dispatched updates to the workers (`need_to_flush` set), and is unchanged
otherwise. -/
theorem transaction_commit_timestamp (st : RunningProgram V)
    (h : st.transaction_in_progress = true) :
    (st.transaction_commit).2 = .ok () ∧
    (st.need_to_flush = true → (st.transaction_commit).1.timestamp = st.timestamp + 1) ∧
    (st.need_to_flush = false → (st.transaction_commit).1.timestamp = st.timestamp) := by
  unfold transaction_commit
  refine ⟨by simp [h], fun hf => ?_, fun hf => ?_⟩ <;>
    simp [h, (delta_cleanup_fields _).2.1, flush_timestamp, hf]

/-- Witness for `transaction_commit_timestamp`: with `need_to_flush` set the
timestamp advances from 5 to 6. -/
theorem transaction_commit_timestamp_witness :
    (RunningProgram.transaction_commit
      { relations := ([] : List (RelId × RelationInstance Nat))
        transaction_in_progress := true
        need_to_flush := true
        timestamp := 5
        num_workers := 1
        sent := []
        worker_round_robbin := 0 }).1.timestamp = 5 + 1 :=
  (transaction_commit_timestamp _ rfl).2.1 rfl

end ClaimC1

/-! ## Claim C10: failing update validation keeps prefix effects, sends nothing -/

section ClaimC10

variable [DecidableEq V]

open RunningProgram

theorem upd_loop_append (inspect : Update V → Except String Unit)
    (us1 us2 : List (Update V)) (rels : List (RelId × RelationInstance V))
    (acc : List (Update V)) :
    upd_loop inspect rels acc (us1 ++ us2) =
      match upd_loop inspect rels acc us1 with
      | (rels', acc', none) => upd_loop inspect rels' acc' us2
      | (rels', acc', some e) => (rels', acc', some e) := by
  induction us1 generalizing rels acc with
  | nil => simp [upd_loop]
  | cons u us1 ih =>
      simp only [List.cons_append, upd_loop]
      cases hins : inspect u with
      | error e => simp
      | ok _ =>
          cases hg : relGet rels u.relid with
          | none => simp
          | some rel =>
              cases ha : apply_update_rel rel u acc with
              | error e => simp [ha]
              | ok p =>
                  obtain ⟨rel', acc'⟩ := p
                  simpa [ha] using ih _ _

/-- If the first update of a batch fails validation, the whole loop fails
with that error from the current state. -/
theorem upd_loop_cons_of_fail (inspect : Update V → Except String Unit)
    (u : Update V) (us : List (Update V))
    (rels rels' : List (RelId × RelationInstance V))
    (acc acc' : List (Update V)) (e : String)
    (h : upd_loop inspect rels acc [u] = (rels', acc', some e)) :
    upd_loop inspect rels acc (u :: us) = (rels', acc', some e) := by
  revert h
  simp only [upd_loop]
  cases hins : inspect u with
  | error e' => exact fun h => h
  | ok _ =>
      cases hg : relGet rels u.relid with
      | none => exact fun h => h
      | some rel =>
          cases ha : apply_update_rel rel u acc with
          | error e' => simp [ha]
          | ok p =>
              obtain ⟨rel', acc'⟩ := p
              simp [ha, upd_loop]

/-- **C10.** If the `i`-th update of an `apply_updates` batch fails
per-update validation (here: the batch is `us1 ++ u :: us2`, the prefix
`us1` validates successfully producing relation stores `rels1`, and `u`
fails from those stores), then the call returns that error; the effects of
the prefix on the element and delta stores are retained, nothing is
forwarded to the workers, and `need_to_flush` is untouched. -/
theorem apply_updates_validation_failure (st : RunningProgram V)
    (us1 us2 : List (Update V)) (u : Update V)
    (inspect : Update V → Except String Unit)
    (rels1 : List (RelId × RelationInstance V)) (acc1 : List (Update V))
    (e : String)
    (htip : st.transaction_in_progress = true)
    (hpre : upd_loop inspect st.relations [] us1 = (rels1, acc1, none))
    (hfail : upd_loop inspect rels1 acc1 [u] = (rels1, acc1, some e)) :
    (st.apply_updates (us1 ++ u :: us2) inspect).2 = .error e ∧
    (st.apply_updates (us1 ++ u :: us2) inspect).1.relations = rels1 ∧
    (st.apply_updates (us1 ++ u :: us2) inspect).1.sent = st.sent ∧
    (st.apply_updates (us1 ++ u :: us2) inspect).1.need_to_flush =
      st.need_to_flush ∧
    (st.apply_updates (us1 ++ u :: us2) inspect).1.timestamp = st.timestamp := by
  have hloop : upd_loop inspect st.relations [] (us1 ++ u :: us2) =
      (rels1, acc1, some e) := by
    rw [upd_loop_append, hpre]
    exact upd_loop_cons_of_fail inspect u us2 rels1 rels1 acc1 acc1 e hfail
  unfold RunningProgram.apply_updates
  rw [htip]
  simp [hloop]

/-- Witness for `apply_updates_validation_failure`: inserting value 2 then a
duplicate key 1 into an indexed relation; the first insert's effect is
retained, nothing is sent. -/
theorem apply_updates_validation_failure_witness :
    ((RunningProgram.apply_updates
      { relations := [(0, RelationInstance.Indexed (fun n => n) [(1, 1)] [])]
        transaction_in_progress := true
        need_to_flush := false
        timestamp := 0
        num_workers := 1
        sent := []
        worker_round_robbin := 0 }
      [Update.Insert 0 (2 : Nat), Update.Insert 0 1]
      (fun _ => .ok ())).2 = .error "Insert: duplicate key") ∧
    ((RunningProgram.apply_updates
      { relations := [(0, RelationInstance.Indexed (fun n => n) [(1, 1)] [])]
        transaction_in_progress := true
        need_to_flush := false
        timestamp := 0
        num_workers := 1
        sent := []
        worker_round_robbin := 0 }
      [Update.Insert 0 (2 : Nat), Update.Insert 0 1]
      (fun _ => .ok ())).1.sent = []) := by
  have h := apply_updates_validation_failure
    (V := Nat)
    { relations := [(0, RelationInstance.Indexed (fun n => n) [(1, 1)] [])]
      transaction_in_progress := true
      need_to_flush := false
      timestamp := 0
      num_workers := 1
      sent := []
      worker_round_robbin := 0 }
    [Update.Insert 0 2] [] (Update.Insert 0 1) (fun _ => .ok ())
    [(0, RelationInstance.Indexed (fun n => n) [(2, 2), (1, 1)] [(2, 1)])]
    [Update.Insert 0 2] "Insert: duplicate key" rfl rfl rfl
  exact ⟨h.1, h.2.2.1⟩

end ClaimC10

/-! ## Claim C7: query replies are fully consumed before failing -/

section ClaimC7

variable [DecidableEq V]

open RunningProgram

/-- Is a reply a `QueryRes`? -/
def Reply.isQueryRes : Reply V → Bool
  | .QueryRes _ => true
  | .FlushAck => false

/-- Does some reply report an unknown arrangement (`QueryRes(None)`)? -/
def hasUnknown : List (Reply V) → Bool
  | [] => false
  | .QueryRes none :: _ => true
  | _ :: rest => hasUnknown rest

/-- The union of all sets returned by the workers. -/
def mergedSets : List (Reply V) → Finset V
  | [] => ∅
  | .QueryRes (some s) :: rest => s ∪ mergedSets rest
  | _ :: rest => mergedSets rest

theorem query_loop_ok (replies : List (Reply V))
    (hall : ∀ r ∈ replies, Reply.isQueryRes r = true) (res : Finset V)
    (unknown : Bool) (n : Nat) :
    query_loop replies res unknown n =
      .ok (res ∪ mergedSets replies, unknown || hasUnknown replies,
        n + replies.length) := by
  induction replies generalizing res unknown n with
  | nil => simp [query_loop, mergedSets, hasUnknown]
  | cons r rest ih =>
      have hr := hall r (List.mem_cons_self _ _)
      have hrest : ∀ x ∈ rest, Reply.isQueryRes x = true := fun x hx =>
        hall x (List.mem_cons_of_mem _ hx)
      cases r with
      | FlushAck => simp [Reply.isQueryRes] at hr
      | QueryRes o =>
          cases o with
          | none =>
              simp only [query_loop, mergedSets, hasUnknown]
              rw [ih hrest]
              simp [Nat.add_comm, Nat.add_assoc, Nat.add_left_comm]
          | some vals =>
              simp only [query_loop, mergedSets, hasUnknown]
              by_cases hv : vals = ∅
              · rw [if_pos hv, ih hrest]
                simp [hv, Nat.add_comm, Nat.add_assoc, Nat.add_left_comm]
              · rw [if_neg hv]
                by_cases hres : res = ∅
                · rw [if_pos hres, ih hrest]
                  simp [hres, Nat.add_comm, Nat.add_assoc, Nat.add_left_comm]
                · rw [if_neg hres, ih hrest]
                  simp [Finset.union_assoc, Nat.add_comm, Nat.add_assoc,
                    Nat.add_left_comm]

/-- **C7.** For a query (`_query_arrangement`), when every worker reply is a
`QueryRes`: if any worker replies `QueryRes(None)` the call returns the
unknown-arrangement error, but only after consuming all `replies.length`
replies; if no worker replies `None`, the call returns the merged union of
all returned sets. -/
theorem query_arrangement_replies (st : RunningProgram V) (arrid : ArrId)
    (k : Option V) (replies : List (Reply V))
    (hall : ∀ r ∈ replies, Reply.isQueryRes r = true) :
    (hasUnknown replies = true →
      (st._query_arrangement arrid k replies).2.1 =
        .error "query_arrangement: unknown index" ∧
      (st._query_arrangement arrid k replies).2.2 = replies.length) ∧
    (hasUnknown replies = false →
      (st._query_arrangement arrid k replies).2.1 =
        .ok (mergedSets replies)) := by
  unfold RunningProgram._query_arrangement
  rw [query_loop_ok replies hall ∅ false 0]
  constructor
  · intro hu
    simp [hu]
  · intro hu
    simp [hu]

/-- Witness for `query_arrangement_replies`: two workers, the second does
not recognize the arrangement; the error comes only after both replies are
consumed. -/
theorem query_arrangement_replies_witness :
    ((RunningProgram._query_arrangement
      { relations := ([] : List (RelId × RelationInstance Nat))
        transaction_in_progress := false
        need_to_flush := false
        timestamp := 0
        num_workers := 2
        sent := []
        worker_round_robbin := 0 }
      (0, 0) none
      [Reply.QueryRes (some {1, 2}), Reply.QueryRes none]).2.1 =
        .error "query_arrangement: unknown index") ∧
    ((RunningProgram._query_arrangement
      { relations := ([] : List (RelId × RelationInstance Nat))
        transaction_in_progress := false
        need_to_flush := false
        timestamp := 0
        num_workers := 2
        sent := []
        worker_round_robbin := 0 }
      (0, 0) none
      [Reply.QueryRes (some {1, 2}), Reply.QueryRes none]).2.2 = 2) := by
  have h := (query_arrangement_replies
    (V := Nat)
    { relations := []
      transaction_in_progress := false
      need_to_flush := false
      timestamp := 0
      num_workers := 2
      sent := []
      worker_round_robbin := 0 }
    (0, 0) none
    [Reply.QueryRes (some {1, 2}), Reply.QueryRes none]
    (by decide)).1 rfl
  exact h

end ClaimC7

/-! ## Value counting on the three element stores -/

section Counting

variable [DecidableEq V]

/-- Multiset count of a value in a flat set (0 or 1). -/
def flatCount (e : ValSet V) (x : V) : Int := if x ∈ e then 1 else 0

/-- Multiset count of a value among the values stored in an indexed store. -/
def valCount (e : IndexedValSet V) (x : V) : Int :=
  ((e.filter fun p => decide (p.2 = x)).length : Int)

theorem valCount_nil (x : V) : valCount ([] : IndexedValSet V) x = 0 := rfl

theorem valCount_cons (p : V × V) (e : IndexedValSet V) (x : V) :
    valCount (p :: e) x = (if p.2 = x then 1 else 0) + valCount e x := by
  by_cases h : p.2 = x <;>
    simp [valCount, List.filter_cons, h] <;> ring

theorem imLookup_eq_none_iff {e : IndexedValSet V} {k : V} :
    imLookup e k = none ↔ k ∉ e.map Prod.fst := by
  induction e with
  | nil => simp [imLookup]
  | cons p tl ih =>
      rw [imLookup_cons]
      by_cases h : p.1 = k
      · simp [h]
      · simp only [h, if_false, ih, List.map_cons, List.mem_cons]
        constructor
        · intro hx hc
          rcases hc with hc | hc
          · exact h hc.symm
          · exact hx hc
        · intro hx
          exact fun hc => hx (Or.inr hc)

theorem imSet_eq_of_forall_ne {e : IndexedValSet V} {k : V} (v : V)
    (h : ∀ p ∈ e, p.1 ≠ k) : imSet e k v = e := by
  induction e with
  | nil => rfl
  | cons p tl ih =>
      rw [imSet_cons, if_neg (h p (List.mem_cons_self _ _))]
      rw [ih (fun q hq => h q (List.mem_cons_of_mem _ hq))]

theorem imErase_eq_of_forall_ne {e : IndexedValSet V} {k : V}
    (h : ∀ p ∈ e, p.1 ≠ k) : imErase e k = e := by
  induction e with
  | nil => rfl
  | cons p tl ih =>
      rw [imErase_cons, if_neg (h p (List.mem_cons_self _ _))]
      rw [ih (fun q hq => h q (List.mem_cons_of_mem _ hq))]

theorem nodup_tail_forall_ne {p : V × V} {e : IndexedValSet V}
    (hn : NodupKeys (p :: e)) : ∀ q ∈ e, q.1 ≠ p.1 := by
  intro q hq he
  exact (List.nodup_cons.mp hn).1
    (he ▸ List.mem_map.mpr ⟨q, hq, rfl⟩)

theorem valCount_imSet {e : IndexedValSet V} {k old : V} (hn : NodupKeys e)
    (hl : imLookup e k = some old) (v x : V) :
    valCount (imSet e k v) x =
      valCount e x - (if old = x then 1 else 0) + (if v = x then 1 else 0) := by
  induction e with
  | nil => simp [imLookup] at hl
  | cons p tl ih =>
      rw [imLookup_cons] at hl
      by_cases hp : p.1 = k
      · rw [if_pos hp] at hl
        have hold : p.2 = old := by injection hl
        have htl : ∀ q ∈ tl, q.1 ≠ k := fun q hq => hp ▸ nodup_tail_forall_ne hn q hq
        rw [imSet_cons, if_pos hp, imSet_eq_of_forall_ne v htl,
          valCount_cons, valCount_cons, hold]
        by_cases h1 : old = x <;> by_cases h2 : v = x <;> simp [h1, h2] <;> ring
      · rw [if_neg hp] at hl
        rw [imSet_cons, if_neg hp, valCount_cons, valCount_cons,
          ih (List.nodup_cons.mp hn).2 hl]
        ring

theorem valCount_imErase {e : IndexedValSet V} {k old : V} (hn : NodupKeys e)
    (hl : imLookup e k = some old) (x : V) :
    valCount (imErase e k) x = valCount e x - (if old = x then 1 else 0) := by
  induction e with
  | nil => simp [imLookup] at hl
  | cons p tl ih =>
      rw [imLookup_cons] at hl
      by_cases hp : p.1 = k
      · rw [if_pos hp] at hl
        have hold : p.2 = old := by injection hl
        have htl : ∀ q ∈ tl, q.1 ≠ k := fun q hq => hp ▸ nodup_tail_forall_ne hn q hq
        rw [imErase_cons, if_pos hp, imErase_eq_of_forall_ne htl, valCount_cons,
          hold]
        by_cases h1 : old = x <;> simp [h1] <;> ring
      · rw [if_neg hp] at hl
        rw [imErase_cons, if_neg hp, valCount_cons, valCount_cons,
          ih (List.nodup_cons.mp hn).2 hl]
        ring

theorem imErase_keys_sublist (e : IndexedValSet V) (k : V) :
    ((imErase e k).map Prod.fst).Sublist (e.map Prod.fst) :=
  (List.filter_sublist e).map Prod.fst

theorem imSet_keys (e : IndexedValSet V) (k v : V) :
    (imSet e k v).map Prod.fst = e.map Prod.fst := by
  induction e with
  | nil => rfl
  | cons p tl ih =>
      by_cases h : p.1 = k <;> simp [imSet_cons, h, ih]

theorem NodupKeys.imErase {e : IndexedValSet V} (hn : NodupKeys e) (k : V) :
    NodupKeys (DDlog.imErase e k) :=
  hn.sublist (imErase_keys_sublist e k)

theorem NodupKeys.imSet {e : IndexedValSet V} (hn : NodupKeys e) (k v : V) :
    NodupKeys (DDlog.imSet e k v) := by
  unfold NodupKeys
  rw [imSet_keys]
  exact hn

end Counting

/-! ## Relation well-formedness and delta conservation -/

section Conservation

variable [DecidableEq V]

/-- Representation invariants of a runtime relation instance: both the
element store (where present) and the delta set are valid hash-map images
(distinct keys) and the delta holds no zero entries. -/
def RelWF : RelationInstance V → Prop
  | .Stream d => ZeroFree d ∧ NodupKeys d
  | .Multiset e d => ZeroFree d ∧ NodupKeys d ∧ ZeroFree e ∧ NodupKeys e
  | .Flat e d => ZeroFree d ∧ NodupKeys d ∧ e.Nodup
  | .Indexed _ e d => ZeroFree d ∧ NodupKeys d ∧ NodupKeys e

/-- Delta conservation between two states of the same relation: the two
states have the same variant and the change of the delta count of every
value equals the change of its multiset count in the element store (for
streams, which have no element store, the statement is void). -/
def RelConserved : RelationInstance V → RelationInstance V → Prop
  | .Stream _, .Stream _ => True
  | .Multiset e0 d0, .Multiset e d =>
      ∀ v, dsCount d v = dsCount d0 v + (dsCount e v - dsCount e0 v)
  | .Flat e0 d0, .Flat e d =>
      ∀ v, dsCount d v = dsCount d0 v + (flatCount e v - flatCount e0 v)
  | .Indexed _ e0 d0, .Indexed _ e d =>
      ∀ v, dsCount d v = dsCount d0 v + (valCount e v - valCount e0 v)
  | _, _ => False

theorem relConserved_refl (r : RelationInstance V) : RelConserved r r := by
  cases r <;> simp [RelConserved]

theorem relConserved_trans {a b c : RelationInstance V}
    (h1 : RelConserved a b) (h2 : RelConserved b c) : RelConserved a c := by
  cases a <;> cases b <;> cases c <;> simp [RelConserved] at * <;>
    intro v <;> have := h1 v <;> have := h2 v <;> omega

theorem dsCount_inc_if (d : DeltaSet V) (v x : V) :
    dsCount (delta_inc d v) x = dsCount d x + (if v = x then 1 else 0) := by
  by_cases h : v = x
  · rw [h, dsCount_delta_inc_self]; simp
  · rw [dsCount_delta_inc_ne _ (fun he => h he.symm)]; simp [h]

theorem dsCount_dec_if (d : DeltaSet V) (v x : V) :
    dsCount (delta_dec d v) x = dsCount d x - (if v = x then 1 else 0) := by
  by_cases h : v = x
  · rw [h, dsCount_delta_dec_self]; simp
  · rw [dsCount_delta_dec_ne _ (fun he => h he.symm)]; simp [h]

/-- One successful `apply_update` preserves the representation invariants
and relates the delta change to the element-store change. -/
theorem apply_update_rel_preserves {rel rel' : RelationInstance V}
    {u : Update V} {acc acc' : List (Update V)} (hwf : RelWF rel)
    (h : apply_update_rel rel u acc = .ok (rel', acc')) :
    RelWF rel' ∧ RelConserved rel rel' := by
  cases rel with
  | Stream d =>
      obtain ⟨hz, hn⟩ := hwf
      cases u with
      | Insert relid v =>
          simp [apply_update_rel, stream_update, Except.map] at h
          obtain ⟨rfl, rfl⟩ := h
          exact ⟨⟨hz.delta_inc_zf _, hn.delta_inc_nk _⟩, trivial⟩
      | DeleteValue relid v =>
          simp [apply_update_rel, stream_update, Except.map] at h
          obtain ⟨rfl, rfl⟩ := h
          exact ⟨⟨hz.delta_dec_zf _, hn.delta_dec_nk _⟩, trivial⟩
      | InsertOrUpdate relid v =>
          simp [apply_update_rel, stream_update, Except.map] at h
      | DeleteKey relid k =>
          simp [apply_update_rel, stream_update, Except.map] at h
      | Modify relid k m =>
          simp [apply_update_rel, stream_update, Except.map] at h
  | Multiset e d =>
      obtain ⟨hz, hn, hze, hne⟩ := hwf
      cases u with
      | Insert relid v =>
          simp [apply_update_rel, mset_update, Except.map] at h
          obtain ⟨rfl, rfl⟩ := h
          refine ⟨⟨hz.delta_inc_zf _, hn.delta_inc_nk _, hze.delta_inc_zf _,
            hne.delta_inc_nk _⟩, ?_⟩
          simp only [RelConserved]
          intro x
          rw [dsCount_inc_if, dsCount_inc_if]
          ring
      | DeleteValue relid v =>
          simp [apply_update_rel, mset_update, Except.map] at h
          obtain ⟨rfl, rfl⟩ := h
          refine ⟨⟨hz.delta_dec_zf _, hn.delta_dec_nk _, hze.delta_dec_zf _,
            hne.delta_dec_nk _⟩, ?_⟩
          simp only [RelConserved]
          intro x
          rw [dsCount_dec_if, dsCount_dec_if]
          ring
      | InsertOrUpdate relid v =>
          simp [apply_update_rel, mset_update, Except.map] at h
      | DeleteKey relid k =>
          simp [apply_update_rel, mset_update, Except.map] at h
      | Modify relid k m =>
          simp [apply_update_rel, mset_update, Except.map] at h
  | Flat e d =>
      obtain ⟨hz, hn, hne⟩ := hwf
      cases u with
      | Insert relid v =>
          by_cases hv : v ∈ e <;>
            simp [apply_update_rel, set_update, hv, Except.map] at h <;>
            obtain ⟨rfl, rfl⟩ := h
          · refine ⟨⟨hz, hn, hne⟩, ?_⟩
            simp only [RelConserved]
            intro x; ring
          · refine ⟨⟨hz.delta_inc_zf _, hn.delta_inc_nk _, List.Nodup.cons hv hne⟩, ?_⟩
            simp only [RelConserved]
            intro x
            rw [dsCount_inc_if]
            by_cases hx : v = x
            · rw [hx] at hv ⊢
              simp [flatCount, hv]
            · have hx' : ¬(x = v) := fun he => hx he.symm
              simp [flatCount, hx, hx', List.mem_cons]
      | DeleteValue relid v =>
          by_cases hv : v ∈ e <;>
            simp [apply_update_rel, set_update, hv, Except.map] at h <;>
            obtain ⟨rfl, rfl⟩ := h
          · refine ⟨⟨hz.delta_dec_zf _, hn.delta_dec_nk _, hne.filter _⟩, ?_⟩
            simp only [RelConserved]
            intro x
            rw [dsCount_dec_if]
            by_cases hx : v = x
            · rw [hx] at hv ⊢
              simp [flatCount, hv, List.mem_filter]
              omega
            · have hx' : ¬(x = v) := fun he => hx he.symm
              simp [flatCount, hx, hx', List.mem_filter]
          · refine ⟨⟨hz, hn, hne⟩, ?_⟩
            simp only [RelConserved]
            intro x; ring
      | InsertOrUpdate relid v =>
          simp [apply_update_rel, set_update, Except.map] at h
      | DeleteKey relid k =>
          simp [apply_update_rel, set_update, Except.map] at h
      | Modify relid k m =>
          simp [apply_update_rel, set_update, Except.map] at h
  | Indexed kf e d =>
      obtain ⟨hz, hn, hne⟩ := hwf
      cases u with
      | Insert relid v =>
          cases hl : imLookup e (kf v) with
          | some old =>
              simp [apply_update_rel, indexed_set_update, hl, Except.map] at h
          | none =>
              simp [apply_update_rel, indexed_set_update, hl, Except.map] at h
              obtain ⟨rfl, rfl⟩ := h
              refine ⟨⟨hz.delta_inc_zf _, hn.delta_inc_nk _,
                List.Nodup.cons (imLookup_eq_none_iff.mp hl) hne⟩, ?_⟩
              simp only [RelConserved]
              intro x
              rw [valCount_cons, dsCount_inc_if]
              ring
      | InsertOrUpdate relid v =>
          cases hl : imLookup e (kf v) with
          | some old =>
              simp [apply_update_rel, indexed_set_update, hl, Except.map] at h
              obtain ⟨rfl, rfl⟩ := h
              refine ⟨⟨(hz.delta_dec_zf _).delta_inc_zf _, (hn.delta_dec_nk _).delta_inc_nk _,
                hne.imSet _ _⟩, ?_⟩
              simp only [RelConserved]
              intro x
              rw [valCount_imSet hne hl, dsCount_inc_if, dsCount_dec_if]
              ring
          | none =>
              simp [apply_update_rel, indexed_set_update, hl, Except.map] at h
              obtain ⟨rfl, rfl⟩ := h
              refine ⟨⟨hz.delta_inc_zf _, hn.delta_inc_nk _,
                List.Nodup.cons (imLookup_eq_none_iff.mp hl) hne⟩, ?_⟩
              simp only [RelConserved]
              intro x
              rw [valCount_cons, dsCount_inc_if]
              ring
      | DeleteValue relid v =>
          cases hl : imLookup e (kf v) with
          | some old =>
              by_cases ho : old = v
              · subst ho
                simp [apply_update_rel, indexed_set_update, hl, Except.map] at h
                obtain ⟨rfl, rfl⟩ := h
                refine ⟨⟨hz.delta_dec_zf _, hn.delta_dec_nk _, hne.imErase _⟩, ?_⟩
                simp only [RelConserved]
                intro x
                rw [valCount_imErase hne hl, dsCount_dec_if]
                ring
              · simp [apply_update_rel, indexed_set_update, hl, ho,
                  Except.map] at h
          | none =>
              simp [apply_update_rel, indexed_set_update, hl, Except.map] at h
      | DeleteKey relid k =>
          cases hl : imLookup e k with
          | some old =>
              simp [apply_update_rel, indexed_set_update, hl, Except.map] at h
              obtain ⟨rfl, rfl⟩ := h
              refine ⟨⟨hz.delta_dec_zf _, hn.delta_dec_nk _, hne.imErase _⟩, ?_⟩
              simp only [RelConserved]
              intro x
              rw [valCount_imErase hne hl, dsCount_dec_if]
              ring
          | none =>
              simp [apply_update_rel, indexed_set_update, hl, Except.map] at h
      | Modify relid k m =>
          cases hl : imLookup e k with
          | some old =>
              cases hm : m old with
              | some new =>
                  simp [apply_update_rel, indexed_set_update, hl, hm,
                    Except.map] at h
                  obtain ⟨rfl, rfl⟩ := h
                  refine ⟨⟨(hz.delta_dec_zf _).delta_inc_zf _,
                    (hn.delta_dec_nk _).delta_inc_nk _, hne.imSet _ _⟩, ?_⟩
                  simp only [RelConserved]
                  intro x
                  rw [valCount_imSet hne hl, dsCount_inc_if, dsCount_dec_if]
                  ring
              | none =>
                  simp [apply_update_rel, indexed_set_update, hl, hm,
                    Except.map] at h
          | none =>
              simp [apply_update_rel, indexed_set_update, hl, Except.map] at h

theorem RelWF.zeroFree_delta {rel : RelationInstance V} (h : RelWF rel) :
    ZeroFree rel.delta := by
  cases rel <;> exact h.1

theorem RelWF.nodup_delta {rel : RelationInstance V} (h : RelWF rel) :
    NodupKeys rel.delta := by
  cases rel with
  | Stream d => exact h.2
  | Multiset e d => exact h.2.1
  | Flat e d => exact h.2.1
  | Indexed kf e d => exact h.2.1

theorem relGet_cons (p : RelId × RelationInstance V)
    (rels : List (RelId × RelationInstance V)) (rid : RelId) :
    RunningProgram.relGet (p :: rels) rid =
      if p.1 = rid then some p.2 else RunningProgram.relGet rels rid := by
  by_cases h : p.1 = rid <;> simp [RunningProgram.relGet, List.find?_cons, h]

theorem relGet_eq_of_mem {rels : List (RelId × RelationInstance V)}
    (hn : NodupKeys rels) {p : RelId × RelationInstance V} (hp : p ∈ rels) :
    RunningProgram.relGet rels p.1 = some p.2 := by
  induction rels with
  | nil => cases hp
  | cons q tl ih =>
      rcases List.mem_cons.mp hp with rfl | hp'
      · simp [relGet_cons]
      · have hk : p.1 ∈ tl.map Prod.fst := List.mem_map.mpr ⟨p, hp', rfl⟩
        have hq : q.1 ≠ p.1 := by
          intro he
          exact (List.nodup_cons.mp hn).1 (he ▸ hk)
        rw [relGet_cons, if_neg hq]
        exact ih (List.nodup_cons.mp hn).2 hp'

theorem relGet_mem {rels : List (RelId × RelationInstance V)} {rid : RelId}
    {rel : RelationInstance V}
    (h : RunningProgram.relGet rels rid = some rel) : (rid, rel) ∈ rels := by
  unfold RunningProgram.relGet at h
  cases hf : rels.find? (fun p => decide (p.1 = rid)) with
  | none => rw [hf] at h; cases h
  | some q =>
      rw [hf] at h
      have hm := List.mem_of_find?_eq_some hf
      have hp : q.1 = rid := by simpa using List.find?_some hf
      have h2 : q.2 = rel := by injection h
      rw [← hp, ← h2]
      simpa using hm

/-- The per-relation invariant carried through a batch of updates: each
relation in the current store exists in the base store, is well-formed, and
its delta change since the base equals its element change. -/
def ConservedFrom (base cur : List (RelId × RelationInstance V)) : Prop :=
  ∀ p ∈ cur, ∃ rel0, RunningProgram.relGet base p.1 = some rel0 ∧
    RelWF p.2 ∧ RelConserved rel0 p.2

theorem upd_loop_conserves (inspect : Update V → Except String Unit)
    (base : List (RelId × RelationInstance V)) (us : List (Update V)) :
    ∀ (rels : List (RelId × RelationInstance V)) (acc : List (Update V)),
      ConservedFrom base rels →
      ConservedFrom base (RunningProgram.upd_loop inspect rels acc us).1 := by
  induction us with
  | nil => intro rels acc h; simpa [RunningProgram.upd_loop] using h
  | cons u us ih =>
      intro rels acc hinv
      simp only [RunningProgram.upd_loop]
      cases hins : inspect u with
      | error e => simpa using hinv
      | ok _ =>
          cases hg : RunningProgram.relGet rels u.relid with
          | none => simpa using hinv
          | some rel =>
              cases ha : apply_update_rel rel u acc with
              | error e => simp only [ha]; exact hinv
              | ok p =>
                  obtain ⟨rel', acc'⟩ := p
                  simp only [ha]
                  apply ih
                  intro q hq
                  obtain ⟨q0, hq0, hqe⟩ := List.mem_map.mp hq
                  by_cases hk : q0.1 = u.relid
                  · rw [if_pos hk] at hqe
                    obtain ⟨rel0, hb, hw, hc⟩ :=
                      hinv (u.relid, rel) (relGet_mem hg)
                    obtain ⟨hw', hc'⟩ := apply_update_rel_preserves hw ha
                    subst hqe
                    exact ⟨rel0, hb, hw', relConserved_trans hc hc'⟩
                  · rw [if_neg hk] at hqe
                    subst hqe
                    exact hinv q0 hq0

/-- `apply_updates` leaves the relation stores exactly as the validation
loop left them, whether or not the call succeeded. -/
theorem apply_updates_relations (st : RunningProgram V) (us : List (Update V))
    (inspect : Update V → Except String Unit)
    (htip : st.transaction_in_progress = true) :
    (st.apply_updates us inspect).1.relations =
      (RunningProgram.upd_loop inspect st.relations [] us).1 := by
  unfold RunningProgram.apply_updates
  rw [htip]
  rcases hl : RunningProgram.upd_loop inspect st.relations [] us with
    ⟨rels', filtered, err⟩
  cases err with
  | some e => simp
  | none =>
      by_cases hf : filtered.isEmpty <;> simp [hf]

/-- **C4.** For every input relation and every batch of update operations
applied within a transaction (the validation loop of `apply_updates`,
starting from well-formed stores whose deltas are empty as they are between
transactions): the state after the batch -- including the state at which a
failing batch stopped -- satisfies, for each relation, that the delta count
of every value equals its current multiset element count minus its count at
the last commit (`RelConserved` against the base with empty delta), and no
delta map stores a zero weight (entries reaching zero are removed). -/
theorem delta_conservation (st : RunningProgram V) (us : List (Update V))
    (inspect : Update V → Except String Unit)
    (hn : NodupKeys st.relations)
    (hwf : ∀ p ∈ st.relations, RelWF p.2)
    (hd0 : ∀ p ∈ st.relations, p.2.delta = []) :
    ∀ p ∈ (RunningProgram.upd_loop inspect st.relations [] us).1,
      ∃ rel0, RunningProgram.relGet st.relations p.1 = some rel0 ∧
        rel0.delta = [] ∧ ZeroFree p.2.delta ∧ RelConserved rel0 p.2 := by
  have hinv : ConservedFrom st.relations st.relations := fun p hp =>
    ⟨p.2, relGet_eq_of_mem hn hp, hwf p hp, relConserved_refl _⟩
  intro p hp
  obtain ⟨rel0, hg, hw, hc⟩ :=
    upd_loop_conserves inspect st.relations us st.relations [] hinv p hp
  exact ⟨rel0, hg, hd0 (p.1, rel0) (relGet_mem hg), hw.zeroFree_delta, hc⟩

/-- Witness for `delta_conservation`: inserting value 5 into an empty
flat-set relation yields delta count `1 = 1 - 0` for 5 and a zero-free
delta. -/
theorem delta_conservation_witness :
    ∃ rel0,
      RunningProgram.relGet
        [(0, RelationInstance.Flat ([] : ValSet Nat) [])] 0 = some rel0 ∧
      rel0.delta = [] ∧
      ZeroFree (RelationInstance.Flat [5] [((5 : Nat), (1 : Int))]).delta ∧
      RelConserved rel0 (RelationInstance.Flat [5] [((5 : Nat), (1 : Int))]) := by
  have hmem : ((0 : RelId), RelationInstance.Flat [5] [((5 : Nat), (1 : Int))]) ∈
      (RunningProgram.upd_loop (fun _ => .ok ())
        [(0, RelationInstance.Flat ([] : ValSet Nat) [])] []
        [Update.Insert 0 5]).1 := by
    have : (RunningProgram.upd_loop (fun _ => .ok ())
        [(0, RelationInstance.Flat ([] : ValSet Nat) [])] []
        [Update.Insert 0 5]).1 =
        [(0, RelationInstance.Flat [5] [((5 : Nat), (1 : Int))])] := rfl
    rw [this]
    exact List.mem_singleton.mpr rfl
  exact delta_conservation
    { relations := [(0, RelationInstance.Flat ([] : ValSet Nat) [])]
      transaction_in_progress := true
      need_to_flush := false
      timestamp := 0
      num_workers := 1
      sent := []
      worker_round_robbin := 0 }
    [Update.Insert 0 5] (fun _ => .ok ())
    (by simp [NodupKeys])
    (by
      intro p hp
      rcases List.mem_singleton.mp hp with rfl
      refine ⟨?_, ?_, ?_⟩
      · intro q hq; cases hq
      · simp [NodupKeys]
      · exact List.nodup_nil)
    (by
      intro p hp
      rcases List.mem_singleton.mp hp with rfl
      rfl)
    _ hmem

end Conservation

/-! ## Rollback: undoing a transaction empties every delta

`transaction_rollback` synthesizes inverse updates from the delta sets
(`delta_undo_updates`) and applies them as a normal batch (`delta_undo`).
This section proves that, on well-formed reachable states, those inverse
updates apply cleanly and leave every delta empty. -/

section Undo

variable [DecidableEq V]

/-- Folding a list of updates over a single relation instance (the effect of
the `apply_updates` validation loop restricted to one relation). -/
def rel_apply_upds :
    RelationInstance V → List (Update V) → List (Update V) →
      Except String (RelationInstance V × List (Update V))
  | rel, acc, [] => .ok (rel, acc)
  | rel, acc, u :: us =>
      match apply_update_rel rel u acc with
      | .error e => .error e
      | .ok (rel', acc') => rel_apply_upds rel' acc' us

theorem rel_apply_upds_append (rel : RelationInstance V)
    (acc us1 us2 : List (Update V)) :
    rel_apply_upds rel acc (us1 ++ us2) =
      match rel_apply_upds rel acc us1 with
      | .error e => .error e
      | .ok (rel', acc') => rel_apply_upds rel' acc' us2 := by
  induction us1 generalizing rel acc with
  | nil => simp [rel_apply_upds]
  | cons u us1 ih =>
      simp only [List.cons_append, rel_apply_upds]
      cases ha : apply_update_rel rel u acc with
      | error e => simp
      | ok p =>
          obtain ⟨rel', acc'⟩ := p
          simpa using ih rel' acc'

/-- The delete half of `delta_undo_updates`. -/
def delsOf (relid : RelId) (L : DeltaSet V) : List (Update V) :=
  L.flatMap fun p =>
    if 0 ≤ p.2 then List.replicate p.2.toNat (Update.DeleteValue relid p.1)
    else []

/-- The insert half of `delta_undo_updates`. -/
def insOf (relid : RelId) (L : DeltaSet V) : List (Update V) :=
  L.flatMap fun p =>
    if 0 ≤ p.2 then []
    else List.replicate (-p.2).toNat (Update.Insert relid p.1)

theorem delta_undo_updates_eq (relid : RelId) (ds : DeltaSet V) :
    RunningProgram.delta_undo_updates relid ds =
      delsOf relid ds ++ insOf relid ds := rfl

/-- The positive portion of the weight an entry of `L` gives to `x`. -/
def posPart (L : DeltaSet V) (x : V) : Int :=
  match dsLookup L x with
  | some w => if 0 ≤ w then w else 0
  | none => 0

/-- The magnitude of the negative portion of the weight an entry of `L`
gives to `x`. -/
def negPart (L : DeltaSet V) (x : V) : Int :=
  match dsLookup L x with
  | some w => if 0 ≤ w then 0 else -w
  | none => 0

theorem posPart_nil (x : V) : posPart ([] : DeltaSet V) x = 0 := rfl

theorem negPart_nil (x : V) : negPart ([] : DeltaSet V) x = 0 := rfl

theorem posPart_cons (p : V × Int) (L : DeltaSet V) (x : V) :
    posPart (p :: L) x =
      if p.1 = x then (if 0 ≤ p.2 then p.2 else 0) else posPart L x := by
  by_cases h : p.1 = x <;> simp [posPart, dsLookup_cons, h]

theorem negPart_cons (p : V × Int) (L : DeltaSet V) (x : V) :
    negPart (p :: L) x =
      if p.1 = x then (if 0 ≤ p.2 then 0 else -p.2) else negPart L x := by
  by_cases h : p.1 = x <;> simp [negPart, dsLookup_cons, h]

theorem posPart_eq_zero_of_not_mem {L : DeltaSet V} {x : V}
    (h : x ∉ L.map Prod.fst) : posPart L x = 0 := by
  simp [posPart, dsLookup_eq_none_iff.mpr h]

theorem negPart_eq_zero_of_not_mem {L : DeltaSet V} {x : V}
    (h : x ∉ L.map Prod.fst) : negPart L x = 0 := by
  simp [negPart, dsLookup_eq_none_iff.mpr h]

theorem posPart_add_negPart (L : DeltaSet V) (x : V) :
    posPart L x - negPart L x = dsCount L x := by
  cases h : dsLookup L x with
  | none => simp [posPart, negPart, dsCount, h]
  | some w =>
      by_cases hw : 0 ≤ w <;> simp [posPart, negPart, dsCount, h, hw] <;> omega

/-- Applying `n` deletes of `v` to a stream relation always succeeds and
decreases the delta count of `v` by `n`. -/
theorem stream_del_replicate (relid : RelId) (v : V) (n : Nat) :
    ∀ (d : DeltaSet V) (acc : List (Update V)),
      ∃ d' acc',
        rel_apply_upds (.Stream d) acc
            (List.replicate n (Update.DeleteValue relid v)) =
          .ok (.Stream d', acc') ∧
        (∀ x, dsCount d' x = dsCount d x - (if v = x then (n : Int) else 0)) ∧
        (ZeroFree d → ZeroFree d') ∧ (NodupKeys d → NodupKeys d') := by
  induction n with
  | zero =>
      intro d acc
      exact ⟨d, acc, rfl, fun x => by simp, id, id⟩
  | succ n ih =>
      intro d acc
      obtain ⟨d', acc', hrun, hcnt, hz, hn⟩ :=
        ih (delta_dec d v) (acc ++ [Update.DeleteValue relid v])
      refine ⟨d', acc', ?_, ?_, fun h => hz (h.delta_dec_zf v),
        fun h => hn (h.delta_dec_nk v)⟩
      · simpa [List.replicate_succ, rel_apply_upds, apply_update_rel,
          stream_update, Except.map] using hrun
      · intro x
        rw [hcnt x, dsCount_dec_if]
        by_cases h : v = x <;> simp [h] <;> omega

/-- Applying `n` inserts of `v` to a stream relation always succeeds and
increases the delta count of `v` by `n`. -/
theorem stream_ins_replicate (relid : RelId) (v : V) (n : Nat) :
    ∀ (d : DeltaSet V) (acc : List (Update V)),
      ∃ d' acc',
        rel_apply_upds (.Stream d) acc
            (List.replicate n (Update.Insert relid v)) =
          .ok (.Stream d', acc') ∧
        (∀ x, dsCount d' x = dsCount d x + (if v = x then (n : Int) else 0)) ∧
        (ZeroFree d → ZeroFree d') ∧ (NodupKeys d → NodupKeys d') := by
  induction n with
  | zero =>
      intro d acc
      exact ⟨d, acc, rfl, fun x => by simp, id, id⟩
  | succ n ih =>
      intro d acc
      obtain ⟨d', acc', hrun, hcnt, hz, hn⟩ :=
        ih (delta_inc d v) (acc ++ [Update.Insert relid v])
      refine ⟨d', acc', ?_, ?_, fun h => hz (h.delta_inc_zf v),
        fun h => hn (h.delta_inc_nk v)⟩
      · simpa [List.replicate_succ, rel_apply_upds, apply_update_rel,
          stream_update, Except.map] using hrun
      · intro x
        rw [hcnt x, dsCount_inc_if]
        by_cases h : v = x <;> simp [h] <;> omega

theorem stream_dels (relid : RelId) :
    ∀ (L d : DeltaSet V) (acc : List (Update V)),
      NodupKeys L →
      ∃ d' acc',
        rel_apply_upds (.Stream d) acc (delsOf relid L) = .ok (.Stream d', acc') ∧
        (∀ x, dsCount d' x = dsCount d x - posPart L x) ∧
        (ZeroFree d → ZeroFree d') ∧ (NodupKeys d → NodupKeys d') := by
  intro L
  induction L with
  | nil =>
      intro d acc _
      exact ⟨d, acc, rfl, fun x => by simp [posPart_nil], id, id⟩
  | cons p L ih =>
      intro d acc hn
      obtain ⟨v, w⟩ := p
      have hnotin : v ∉ L.map Prod.fst := (List.nodup_cons.mp hn).1
      have hnL : NodupKeys L := (List.nodup_cons.mp hn).2
      by_cases hw : 0 ≤ w
      · obtain ⟨d1, acc1, hrun1, hcnt1, hz1, hn1⟩ :=
          stream_del_replicate relid v w.toNat d acc
        obtain ⟨d', acc', hrun2, hcnt2, hz2, hn2⟩ := ih d1 acc1 hnL
        refine ⟨d', acc', ?_, ?_, fun h => hz2 (hz1 h), fun h => hn2 (hn1 h)⟩
        · rw [delsOf, List.flatMap_cons, if_pos hw, ← delsOf,
            rel_apply_upds_append, hrun1]
          exact hrun2
        · intro x
          rw [hcnt2 x, hcnt1 x, posPart_cons]
          by_cases hx : v = x
          · rw [if_pos hx, if_pos hw]
            rw [← hx]
            rw [posPart_eq_zero_of_not_mem (hx ▸ hnotin)]
            rw [Int.toNat_of_nonneg hw, if_pos rfl]
            omega
          · rw [if_neg hx, if_neg hx]
            omega
      · obtain ⟨d', acc', hrun2, hcnt2, hz2, hn2⟩ := ih d acc hnL
        refine ⟨d', acc', ?_, ?_, hz2, hn2⟩
        · rw [delsOf, List.flatMap_cons, if_neg hw, ← delsOf,
            List.nil_append]
          exact hrun2
        · intro x
          rw [hcnt2 x, posPart_cons]
          by_cases hx : v = x
          · rw [if_pos hx, if_neg hw]
            rw [posPart_eq_zero_of_not_mem (hx ▸ hnotin)]
          · rw [if_neg hx]

theorem stream_ins (relid : RelId) :
    ∀ (L d : DeltaSet V) (acc : List (Update V)),
      NodupKeys L →
      ∃ d' acc',
        rel_apply_upds (.Stream d) acc (insOf relid L) = .ok (.Stream d', acc') ∧
        (∀ x, dsCount d' x = dsCount d x + negPart L x) ∧
        (ZeroFree d → ZeroFree d') ∧ (NodupKeys d → NodupKeys d') := by
  intro L
  induction L with
  | nil =>
      intro d acc _
      exact ⟨d, acc, rfl, fun x => by simp [negPart_nil], id, id⟩
  | cons p L ih =>
      intro d acc hn
      obtain ⟨v, w⟩ := p
      have hnotin : v ∉ L.map Prod.fst := (List.nodup_cons.mp hn).1
      have hnL : NodupKeys L := (List.nodup_cons.mp hn).2
      by_cases hw : 0 ≤ w
      · obtain ⟨d', acc', hrun2, hcnt2, hz2, hn2⟩ := ih d acc hnL
        refine ⟨d', acc', ?_, ?_, hz2, hn2⟩
        · rw [insOf, List.flatMap_cons, if_pos hw, ← insOf, List.nil_append]
          exact hrun2
        · intro x
          rw [hcnt2 x, negPart_cons]
          by_cases hx : v = x
          · rw [if_pos hx, if_pos hw]
            rw [negPart_eq_zero_of_not_mem (hx ▸ hnotin)]
          · rw [if_neg hx]
      · obtain ⟨d1, acc1, hrun1, hcnt1, hz1, hn1⟩ :=
          stream_ins_replicate relid v (-w).toNat d acc
        obtain ⟨d', acc', hrun2, hcnt2, hz2, hn2⟩ := ih d1 acc1 hnL
        refine ⟨d', acc', ?_, ?_, fun h => hz2 (hz1 h), fun h => hn2 (hn1 h)⟩
        · rw [insOf, List.flatMap_cons, if_neg hw, ← insOf,
            rel_apply_upds_append, hrun1]
          exact hrun2
        · intro x
          rw [hcnt2 x, hcnt1 x, negPart_cons]
          by_cases hx : v = x
          · rw [if_pos hx, if_neg hw]
            rw [← hx]
            rw [negPart_eq_zero_of_not_mem (hx ▸ hnotin)]
            rw [Int.toNat_of_nonneg (by omega : (0:Int) ≤ -w), if_pos rfl]
            omega
          · rw [if_neg hx, if_neg hx]
            omega

/-- Undoing a stream relation's delta empties it. -/
theorem stream_undo (relid : RelId) (d : DeltaSet V) (acc : List (Update V))
    (hz : ZeroFree d) (hn : NodupKeys d) :
    ∃ acc',
      rel_apply_upds (.Stream d) acc
          (RunningProgram.delta_undo_updates relid d) =
        .ok (.Stream [], acc') := by
  rw [delta_undo_updates_eq, rel_apply_upds_append]
  obtain ⟨d1, acc1, hrun1, hcnt1, hz1, hn1⟩ := stream_dels relid d d acc hn
  rw [hrun1]
  obtain ⟨d2, acc2, hrun2, hcnt2, hz2, hn2⟩ := stream_ins relid d d1 acc1 hn
  have hzero : ∀ x, dsCount d2 x = 0 := by
    intro x
    rw [hcnt2 x, hcnt1 x]
    have := posPart_add_negPart d x
    omega
  have : d2 = [] := eq_nil_of_forall_dsCount_zero (hz2 (hz1 hz)) hzero
  subst this
  exact ⟨acc2, hrun2⟩

theorem mset_del_replicate (relid : RelId) (v : V) (n : Nat) :
    ∀ (e d : DeltaSet V) (acc : List (Update V)),
      ∃ e' d' acc',
        rel_apply_upds (.Multiset e d) acc
            (List.replicate n (Update.DeleteValue relid v)) =
          .ok (.Multiset e' d', acc') ∧
        (∀ x, dsCount d' x = dsCount d x - (if v = x then (n : Int) else 0)) ∧
        (ZeroFree d → ZeroFree d') ∧ (NodupKeys d → NodupKeys d') := by
  induction n with
  | zero =>
      intro e d acc
      exact ⟨e, d, acc, rfl, fun x => by simp, id, id⟩
  | succ n ih =>
      intro e d acc
      obtain ⟨e', d', acc', hrun, hcnt, hz, hn⟩ :=
        ih (delta_dec e v) (delta_dec d v) (acc ++ [Update.DeleteValue relid v])
      refine ⟨e', d', acc', ?_, ?_, fun h => hz (h.delta_dec_zf v),
        fun h => hn (h.delta_dec_nk v)⟩
      · simpa [List.replicate_succ, rel_apply_upds, apply_update_rel,
          mset_update, Except.map] using hrun
      · intro x
        rw [hcnt x, dsCount_dec_if]
        by_cases h : v = x <;> simp [h] <;> omega

theorem mset_ins_replicate (relid : RelId) (v : V) (n : Nat) :
    ∀ (e d : DeltaSet V) (acc : List (Update V)),
      ∃ e' d' acc',
        rel_apply_upds (.Multiset e d) acc
            (List.replicate n (Update.Insert relid v)) =
          .ok (.Multiset e' d', acc') ∧
        (∀ x, dsCount d' x = dsCount d x + (if v = x then (n : Int) else 0)) ∧
        (ZeroFree d → ZeroFree d') ∧ (NodupKeys d → NodupKeys d') := by
  induction n with
  | zero =>
      intro e d acc
      exact ⟨e, d, acc, rfl, fun x => by simp, id, id⟩
  | succ n ih =>
      intro e d acc
      obtain ⟨e', d', acc', hrun, hcnt, hz, hn⟩ :=
        ih (delta_inc e v) (delta_inc d v) (acc ++ [Update.Insert relid v])
      refine ⟨e', d', acc', ?_, ?_, fun h => hz (h.delta_inc_zf v),
        fun h => hn (h.delta_inc_nk v)⟩
      · simpa [List.replicate_succ, rel_apply_upds, apply_update_rel,
          mset_update, Except.map] using hrun
      · intro x
        rw [hcnt x, dsCount_inc_if]
        by_cases h : v = x <;> simp [h] <;> omega

theorem mset_dels (relid : RelId) :
    ∀ (L : DeltaSet V) (e d : DeltaSet V) (acc : List (Update V)),
      NodupKeys L →
      ∃ e' d' acc',
        rel_apply_upds (.Multiset e d) acc (delsOf relid L) =
          .ok (.Multiset e' d', acc') ∧
        (∀ x, dsCount d' x = dsCount d x - posPart L x) ∧
        (ZeroFree d → ZeroFree d') ∧ (NodupKeys d → NodupKeys d') := by
  intro L
  induction L with
  | nil =>
      intro e d acc _
      exact ⟨e, d, acc, rfl, fun x => by simp [posPart_nil], id, id⟩
  | cons p L ih =>
      intro e d acc hn
      obtain ⟨v, w⟩ := p
      have hnotin : v ∉ L.map Prod.fst := (List.nodup_cons.mp hn).1
      have hnL : NodupKeys L := (List.nodup_cons.mp hn).2
      by_cases hw : 0 ≤ w
      · obtain ⟨e1, d1, acc1, hrun1, hcnt1, hz1, hn1⟩ :=
          mset_del_replicate relid v w.toNat e d acc
        obtain ⟨e', d', acc', hrun2, hcnt2, hz2, hn2⟩ := ih e1 d1 acc1 hnL
        refine ⟨e', d', acc', ?_, ?_, fun h => hz2 (hz1 h), fun h => hn2 (hn1 h)⟩
        · rw [delsOf, List.flatMap_cons, if_pos hw, ← delsOf,
            rel_apply_upds_append, hrun1]
          exact hrun2
        · intro x
          rw [hcnt2 x, hcnt1 x, posPart_cons]
          by_cases hx : v = x
          · rw [if_pos hx, if_pos hw, ← hx,
              posPart_eq_zero_of_not_mem (hx ▸ hnotin),
              Int.toNat_of_nonneg hw, if_pos rfl]
            omega
          · rw [if_neg hx, if_neg hx]
            omega
      · obtain ⟨e', d', acc', hrun2, hcnt2, hz2, hn2⟩ := ih e d acc hnL
        refine ⟨e', d', acc', ?_, ?_, hz2, hn2⟩
        · rw [delsOf, List.flatMap_cons, if_neg hw, ← delsOf, List.nil_append]
          exact hrun2
        · intro x
          rw [hcnt2 x, posPart_cons]
          by_cases hx : v = x
          · rw [if_pos hx, if_neg hw,
              posPart_eq_zero_of_not_mem (hx ▸ hnotin)]
          · rw [if_neg hx]

theorem mset_ins (relid : RelId) :
    ∀ (L : DeltaSet V) (e d : DeltaSet V) (acc : List (Update V)),
      NodupKeys L →
      ∃ e' d' acc',
        rel_apply_upds (.Multiset e d) acc (insOf relid L) =
          .ok (.Multiset e' d', acc') ∧
        (∀ x, dsCount d' x = dsCount d x + negPart L x) ∧
        (ZeroFree d → ZeroFree d') ∧ (NodupKeys d → NodupKeys d') := by
  intro L
  induction L with
  | nil =>
      intro e d acc _
      exact ⟨e, d, acc, rfl, fun x => by simp [negPart_nil], id, id⟩
  | cons p L ih =>
      intro e d acc hn
      obtain ⟨v, w⟩ := p
      have hnotin : v ∉ L.map Prod.fst := (List.nodup_cons.mp hn).1
      have hnL : NodupKeys L := (List.nodup_cons.mp hn).2
      by_cases hw : 0 ≤ w
      · obtain ⟨e', d', acc', hrun2, hcnt2, hz2, hn2⟩ := ih e d acc hnL
        refine ⟨e', d', acc', ?_, ?_, hz2, hn2⟩
        · rw [insOf, List.flatMap_cons, if_pos hw, ← insOf, List.nil_append]
          exact hrun2
        · intro x
          rw [hcnt2 x, negPart_cons]
          by_cases hx : v = x
          · rw [if_pos hx, if_pos hw,
              negPart_eq_zero_of_not_mem (hx ▸ hnotin)]
          · rw [if_neg hx]
      · obtain ⟨e1, d1, acc1, hrun1, hcnt1, hz1, hn1⟩ :=
          mset_ins_replicate relid v (-w).toNat e d acc
        obtain ⟨e', d', acc', hrun2, hcnt2, hz2, hn2⟩ := ih e1 d1 acc1 hnL
        refine ⟨e', d', acc', ?_, ?_, fun h => hz2 (hz1 h), fun h => hn2 (hn1 h)⟩
        · rw [insOf, List.flatMap_cons, if_neg hw, ← insOf,
            rel_apply_upds_append, hrun1]
          exact hrun2
        · intro x
          rw [hcnt2 x, hcnt1 x, negPart_cons]
          by_cases hx : v = x
          · rw [if_pos hx, if_neg hw, ← hx,
              negPart_eq_zero_of_not_mem (hx ▸ hnotin),
              Int.toNat_of_nonneg (by omega : (0:Int) ≤ -w), if_pos rfl]
            omega
          · rw [if_neg hx, if_neg hx]
            omega

/-- Undoing a multiset relation's delta empties it. -/
theorem mset_undo (relid : RelId) (e d : DeltaSet V) (acc : List (Update V))
    (hz : ZeroFree d) (hn : NodupKeys d) :
    ∃ e' acc',
      rel_apply_upds (.Multiset e d) acc
          (RunningProgram.delta_undo_updates relid d) =
        .ok (.Multiset e' [], acc') := by
  rw [delta_undo_updates_eq, rel_apply_upds_append]
  obtain ⟨e1, d1, acc1, hrun1, hcnt1, hz1, hn1⟩ := mset_dels relid d e d acc hn
  rw [hrun1]
  obtain ⟨e2, d2, acc2, hrun2, hcnt2, hz2, hn2⟩ := mset_ins relid d e1 d1 acc1 hn
  have hzero : ∀ x, dsCount d2 x = 0 := by
    intro x
    rw [hcnt2 x, hcnt1 x]
    have := posPart_add_negPart d x
    omega
  have : d2 = [] := eq_nil_of_forall_dsCount_zero (hz2 (hz1 hz)) hzero
  subst this
  exact ⟨e2, acc2, hrun2⟩

theorem flat_dels (relid : RelId) :
    ∀ (L : DeltaSet V) (s : ValSet V) (d : DeltaSet V) (acc : List (Update V)),
      NodupKeys L →
      (∀ p ∈ L, p.2 = 1 ∨ p.2 = -1) →
      (∀ p ∈ L, p.2 = 1 → p.1 ∈ s) →
      ∃ s' d' acc',
        rel_apply_upds (.Flat s d) acc (delsOf relid L) =
          .ok (.Flat s' d', acc') ∧
        (∀ x, dsCount d' x = dsCount d x - posPart L x) ∧
        (∀ x, x ∈ s' ↔ (x ∈ s ∧ posPart L x = 0)) ∧
        (ZeroFree d → ZeroFree d') ∧ (NodupKeys d → NodupKeys d') := by
  intro L
  induction L with
  | nil =>
      intro s d acc _ _ _
      exact ⟨s, d, acc, rfl, fun x => by simp [posPart_nil],
        fun x => by simp [posPart_nil], id, id⟩
  | cons p L ih =>
      intro s d acc hn hpm hpos
      obtain ⟨v, w⟩ := p
      have hnotin : v ∉ L.map Prod.fst := (List.nodup_cons.mp hn).1
      have hnL : NodupKeys L := (List.nodup_cons.mp hn).2
      have hpmL : ∀ p ∈ L, p.2 = 1 ∨ p.2 = -1 := fun p hp =>
        hpm p (List.mem_cons_of_mem _ hp)
      by_cases hw : 0 ≤ w
      · have hw1 : w = 1 := by
          rcases hpm (v, w) (List.mem_cons_self _ _) with h1 | h1 <;> simp at h1 <;> omega
        have hvs : v ∈ s := hpos (v, w) (List.mem_cons_self _ _) (by simpa using hw1)
        have hstep : delsOf relid ((v, w) :: L) =
            Update.DeleteValue relid v :: delsOf relid L := by
          rw [delsOf, List.flatMap_cons, if_pos hw, hw1, ← delsOf]
          rfl
        have hposL : ∀ p ∈ L, p.2 = 1 →
            p.1 ∈ s.filter (fun x => decide (x ≠ v)) := by
          intro p hp h1
          have hne : p.1 ≠ v := by
            intro he
            exact hnotin (he ▸ List.mem_map.mpr ⟨p, hp, rfl⟩)
          exact List.mem_filter.mpr
            ⟨hpos p (List.mem_cons_of_mem _ hp) h1, by simpa using hne⟩
        obtain ⟨s', d', acc', hrun2, hcnt2, hmem2, hz2, hn2⟩ :=
          ih (s.filter (fun x => decide (x ≠ v))) (delta_dec d v)
            (acc ++ [Update.DeleteValue relid v]) hnL hpmL hposL
        refine ⟨s', d', acc', ?_, ?_, ?_, fun h => hz2 (h.delta_dec_zf v),
          fun h => hn2 (h.delta_dec_nk v)⟩
        · rw [hstep]
          simpa [rel_apply_upds, apply_update_rel, set_update, hvs,
            Except.map] using hrun2
        · intro x
          rw [hcnt2 x, dsCount_dec_if, posPart_cons]
          by_cases hx : v = x
          · rw [if_pos hx, if_pos hx, if_pos hw, hw1, ← hx,
              posPart_eq_zero_of_not_mem (hx ▸ hnotin)]
            omega
          · rw [if_neg hx, if_neg hx]
            omega
        · intro x
          rw [hmem2 x, List.mem_filter, posPart_cons]
          by_cases hx : v = x
          · rw [if_pos hx, if_pos hw, hw1]
            have : ¬(x ≠ v) := by simp [hx.symm]
            simp [this]
          · rw [if_neg hx]
            have : (x ≠ v) := fun he => hx he.symm
            simp [this]
      · have hstep : delsOf relid ((v, w) :: L) = delsOf relid L := by
          rw [delsOf, List.flatMap_cons, if_neg hw, ← delsOf, List.nil_append]
        have hposL : ∀ p ∈ L, p.2 = 1 → p.1 ∈ s := fun p hp h1 =>
          hpos p (List.mem_cons_of_mem _ hp) h1
        obtain ⟨s', d', acc', hrun2, hcnt2, hmem2, hz2, hn2⟩ :=
          ih s d acc hnL hpmL hposL
        refine ⟨s', d', acc', by rw [hstep]; exact hrun2, ?_, ?_, hz2, hn2⟩
        · intro x
          rw [hcnt2 x, posPart_cons]
          by_cases hx : v = x
          · rw [if_pos hx, if_neg hw, ← hx,
              posPart_eq_zero_of_not_mem (hx ▸ hnotin)]
          · rw [if_neg hx]
        · intro x
          rw [hmem2 x, posPart_cons]
          by_cases hx : v = x
          · rw [if_pos hx, if_neg hw, ← hx,
              posPart_eq_zero_of_not_mem (hx ▸ hnotin)]
          · rw [if_neg hx]

theorem flat_ins (relid : RelId) :
    ∀ (L : DeltaSet V) (s : ValSet V) (d : DeltaSet V) (acc : List (Update V)),
      NodupKeys L →
      (∀ p ∈ L, p.2 = 1 ∨ p.2 = -1) →
      (∀ p ∈ L, p.2 = -1 → p.1 ∉ s) →
      ∃ s' d' acc',
        rel_apply_upds (.Flat s d) acc (insOf relid L) =
          .ok (.Flat s' d', acc') ∧
        (∀ x, dsCount d' x = dsCount d x + negPart L x) ∧
        (ZeroFree d → ZeroFree d') ∧ (NodupKeys d → NodupKeys d') := by
  intro L
  induction L with
  | nil =>
      intro s d acc _ _ _
      exact ⟨s, d, acc, rfl, fun x => by simp [negPart_nil], id, id⟩
  | cons p L ih =>
      intro s d acc hn hpm hneg
      obtain ⟨v, w⟩ := p
      have hnotin : v ∉ L.map Prod.fst := (List.nodup_cons.mp hn).1
      have hnL : NodupKeys L := (List.nodup_cons.mp hn).2
      have hpmL : ∀ p ∈ L, p.2 = 1 ∨ p.2 = -1 := fun p hp =>
        hpm p (List.mem_cons_of_mem _ hp)
      by_cases hw : 0 ≤ w
      · have hstep : insOf relid ((v, w) :: L) = insOf relid L := by
          rw [insOf, List.flatMap_cons, if_pos hw, ← insOf, List.nil_append]
        have hnegL : ∀ p ∈ L, p.2 = -1 → p.1 ∉ s := fun p hp h1 =>
          hneg p (List.mem_cons_of_mem _ hp) h1
        obtain ⟨s', d', acc', hrun2, hcnt2, hz2, hn2⟩ :=
          ih s d acc hnL hpmL hnegL
        refine ⟨s', d', acc', by rw [hstep]; exact hrun2, ?_, hz2, hn2⟩
        intro x
        rw [hcnt2 x, negPart_cons]
        by_cases hx : v = x
        · rw [if_pos hx, if_pos hw, ← hx,
            negPart_eq_zero_of_not_mem (hx ▸ hnotin)]
        · rw [if_neg hx]
      · have hw1 : w = -1 := by
          rcases hpm (v, w) (List.mem_cons_self _ _) with h1 | h1 <;> simp at h1 <;> omega
        have hvs : v ∉ s := hneg (v, w) (List.mem_cons_self _ _) (by simpa using hw1)
        have hstep : insOf relid ((v, w) :: L) =
            Update.Insert relid v :: insOf relid L := by
          rw [insOf, List.flatMap_cons, if_neg hw, hw1, ← insOf]
          rfl
        have hnegL : ∀ p ∈ L, p.2 = -1 → p.1 ∉ v :: s := by
          intro p hp h1 hmem
          rcases List.mem_cons.mp hmem with he | he
          · exact hnotin (he ▸ List.mem_map.mpr ⟨p, hp, rfl⟩)
          · exact hneg p (List.mem_cons_of_mem _ hp) h1 he
        obtain ⟨s', d', acc', hrun2, hcnt2, hz2, hn2⟩ :=
          ih (v :: s) (delta_inc d v) (acc ++ [Update.Insert relid v])
            hnL hpmL hnegL
        refine ⟨s', d', acc', ?_, ?_, fun h => hz2 (h.delta_inc_zf v),
          fun h => hn2 (h.delta_inc_nk v)⟩
        · rw [hstep]
          simpa [rel_apply_upds, apply_update_rel, set_update, hvs,
            Except.map] using hrun2
        · intro x
          rw [hcnt2 x, dsCount_inc_if, negPart_cons]
          by_cases hx : v = x
          · rw [if_pos hx, if_pos hx, if_neg hw, hw1, ← hx,
              negPart_eq_zero_of_not_mem (hx ▸ hnotin)]
            omega
          · rw [if_neg hx, if_neg hx]
            omega

/-- Undoing a flat-set relation's delta empties it (the hypotheses are the
invariants holding inside a transaction: delta weights are ±1, positive
entries are present in the element set, negative entries absent). -/
theorem flat_undo (relid : RelId) (s : ValSet V) (d : DeltaSet V)
    (acc : List (Update V)) (hn : NodupKeys d)
    (hinv : ∀ p ∈ d, (p.2 = 1 ∧ p.1 ∈ s) ∨ (p.2 = -1 ∧ p.1 ∉ s)) :
    ∃ s' acc',
      rel_apply_upds (.Flat s d) acc
          (RunningProgram.delta_undo_updates relid d) =
        .ok (.Flat s' [], acc') := by
  have hz : ZeroFree d := by
    intro p hp
    rcases hinv p hp with ⟨h1, _⟩ | ⟨h1, _⟩ <;> omega
  have hpm : ∀ p ∈ d, p.2 = 1 ∨ p.2 = -1 := by
    intro p hp
    rcases hinv p hp with ⟨h1, _⟩ | ⟨h1, _⟩ <;> [exact Or.inl h1; exact Or.inr h1]
  have hpos : ∀ p ∈ d, p.2 = 1 → p.1 ∈ s := by
    intro p hp h1
    rcases hinv p hp with ⟨_, h2⟩ | ⟨h2, _⟩
    · exact h2
    · omega
  rw [delta_undo_updates_eq, rel_apply_upds_append]
  obtain ⟨s1, d1, acc1, hrun1, hcnt1, hmem1, hz1, hn1⟩ :=
    flat_dels relid d s d acc hn hpm hpos
  rw [hrun1]
  have hneg1 : ∀ p ∈ d, p.2 = -1 → p.1 ∉ s1 := by
    intro p hp h1 hmem
    rcases hinv p hp with ⟨h2, _⟩ | ⟨_, h2⟩
    · omega
    · exact h2 ((hmem1 p.1).mp hmem).1
  obtain ⟨s2, d2, acc2, hrun2, hcnt2, hz2, hn2⟩ :=
    flat_ins relid d s1 d1 acc1 hn hpm hneg1
  have hzero : ∀ x, dsCount d2 x = 0 := by
    intro x
    rw [hcnt2 x, hcnt1 x]
    have := posPart_add_negPart d x
    omega
  have : d2 = [] := eq_nil_of_forall_dsCount_zero (hz2 (hz1 hz)) hzero
  subst this
  exact ⟨s2, acc2, hrun2⟩

/-- The values of an indexed store are keyed consistently: every entry's key
is the key function of its value.  This holds on reachable stores when
mutators preserve keys (the documented contract of `Modify`). -/
def KeyConsistent (kf : V → V) (e : IndexedValSet V) : Prop :=
  ∀ p ∈ e, kf p.2 = p.1

theorem imLookup_mem {e : IndexedValSet V} {k a : V}
    (h : imLookup e k = some a) : (k, a) ∈ e := by
  unfold imLookup at h
  cases hf : e.find? (fun p => decide (p.1 = k)) with
  | none => rw [hf] at h; cases h
  | some q =>
      rw [hf] at h
      have hm := List.mem_of_find?_eq_some hf
      have hp : q.1 = k := by simpa using List.find?_some hf
      have h2 : q.2 = a := by injection h
      rw [← hp, ← h2]
      simpa using hm

theorem KeyConsistent.lookup {kf : V → V} {e : IndexedValSet V}
    (hkc : KeyConsistent kf e) {k a : V} (h : imLookup e k = some a) :
    kf a = k :=
  hkc (k, a) (imLookup_mem h)

theorem dsLookup_mem {d : DeltaSet V} {a : V} {w : Int}
    (h : dsLookup d a = some w) : (a, w) ∈ d := by
  unfold dsLookup at h
  cases hf : d.find? (fun p => decide (p.1 = a)) with
  | none => rw [hf] at h; cases h
  | some q =>
      rw [hf] at h
      have hm := List.mem_of_find?_eq_some hf
      have hp : q.1 = a := by simpa using List.find?_some hf
      have h2 : q.2 = w := by injection h
      rw [← hp, ← h2]
      simpa using hm

theorem mem_of_dsCount_one {d : DeltaSet V} {a : V} (h : dsCount d a = 1) :
    (a, (1 : Int)) ∈ d := by
  unfold dsCount at h
  cases hl : dsLookup d a with
  | none => rw [hl] at h; simp at h
  | some w =>
      rw [hl] at h
      simp at h
      exact h ▸ dsLookup_mem hl

theorem idx_dels (relid : RelId) (kf : V → V) :
    ∀ (L : DeltaSet V) (e : IndexedValSet V) (d : DeltaSet V)
      (acc : List (Update V)),
      NodupKeys L →
      (∀ p ∈ L, p.2 = 1 ∨ p.2 = -1) →
      NodupKeys e →
      (∀ p ∈ L, p.2 = 1 → imLookup e (kf p.1) = some p.1) →
      ∃ e' d' acc',
        rel_apply_upds (.Indexed kf e d) acc (delsOf relid L) =
          .ok (.Indexed kf e' d', acc') ∧
        (∀ x, dsCount d' x = dsCount d x - posPart L x) ∧
        (∀ p ∈ L, p.2 = 1 → imLookup e' (kf p.1) = none) ∧
        (∀ k, (∀ p ∈ L, p.2 = 1 → kf p.1 ≠ k) → imLookup e' k = imLookup e k) ∧
        NodupKeys e' ∧
        (ZeroFree d → ZeroFree d') ∧ (NodupKeys d → NodupKeys d') := by
  intro L
  induction L with
  | nil =>
      intro e d acc _ _ hne _
      exact ⟨e, d, acc, rfl, fun x => by simp [posPart_nil],
        fun p hp => (List.not_mem_nil p hp).elim, fun k _ => rfl, hne, id, id⟩
  | cons p L ih =>
      intro e d acc hn hpm hne hpos
      obtain ⟨v, w⟩ := p
      have hnotin : v ∉ L.map Prod.fst := (List.nodup_cons.mp hn).1
      have hnL : NodupKeys L := (List.nodup_cons.mp hn).2
      have hpmL : ∀ p ∈ L, p.2 = 1 ∨ p.2 = -1 := fun p hp =>
        hpm p (List.mem_cons_of_mem _ hp)
      by_cases hw : 0 ≤ w
      · have hw1 : w = 1 := by
          rcases hpm (v, w) (List.mem_cons_self _ _) with h1 | h1 <;>
            simp at h1 <;> omega
        have hl : imLookup e (kf v) = some v :=
          hpos (v, w) (List.mem_cons_self _ _) (by simpa using hw1)
        have hstep : delsOf relid ((v, w) :: L) =
            Update.DeleteValue relid v :: delsOf relid L := by
          rw [delsOf, List.flatMap_cons, if_pos hw, hw1, ← delsOf]
          rfl
        have hkey_ne : ∀ p ∈ L, p.2 = 1 → kf p.1 ≠ kf v := by
          intro p hp h1 he
          have h2 := hpos p (List.mem_cons_of_mem _ hp) h1
          rw [he, hl] at h2
          have : p.1 = v := by injection h2 with h3; exact h3.symm
          exact hnotin (this ▸ List.mem_map.mpr ⟨p, hp, rfl⟩)
        have hposL : ∀ p ∈ L, p.2 = 1 →
            imLookup (imErase e (kf v)) (kf p.1) = some p.1 := by
          intro p hp h1
          rw [imLookup_imErase_ne e (hkey_ne p hp h1)]
          exact hpos p (List.mem_cons_of_mem _ hp) h1
        obtain ⟨e', d', acc', hrun2, hcnt2, hc1, hc2, hne', hz2, hn2⟩ :=
          ih (imErase e (kf v)) (delta_dec d v)
            (acc ++ [Update.DeleteValue relid v]) hnL hpmL (hne.imErase _) hposL
        refine ⟨e', d', acc', ?_, ?_, ?_, ?_, hne',
          fun h => hz2 (h.delta_dec_zf v), fun h => hn2 (h.delta_dec_nk v)⟩
        · rw [hstep]
          simpa [rel_apply_upds, apply_update_rel, indexed_set_update, hl,
            Except.map] using hrun2
        · intro x
          rw [hcnt2 x, dsCount_dec_if, posPart_cons]
          by_cases hx : v = x
          · rw [if_pos hx, if_pos hx, if_pos hw, hw1, ← hx,
              posPart_eq_zero_of_not_mem (hx ▸ hnotin)]
            omega
          · rw [if_neg hx, if_neg hx]
            omega
        · intro p hp h1
          rcases List.mem_cons.mp hp with he | hp'
          · have hv : p.1 = v := by rw [he]
            rw [hv]
            rw [hc2 (kf v) (fun q hq hq1 => hkey_ne q hq hq1)]
            exact imLookup_imErase_self e (kf v)
          · exact hc1 p hp' h1
        · intro k hk
          have hkv : kf v ≠ k :=
            hk (v, w) (List.mem_cons_self _ _) (by simpa using hw1)
          rw [hc2 k (fun q hq hq1 => hk q (List.mem_cons_of_mem _ hq) hq1)]
          exact imLookup_imErase_ne e (fun he => hkv he.symm)
      · have hstep : delsOf relid ((v, w) :: L) = delsOf relid L := by
          rw [delsOf, List.flatMap_cons, if_neg hw, ← delsOf, List.nil_append]
        have hposL : ∀ p ∈ L, p.2 = 1 → imLookup e (kf p.1) = some p.1 :=
          fun p hp h1 => hpos p (List.mem_cons_of_mem _ hp) h1
        obtain ⟨e', d', acc', hrun2, hcnt2, hc1, hc2, hne', hz2, hn2⟩ :=
          ih e d acc hnL hpmL hne hposL
        refine ⟨e', d', acc', by rw [hstep]; exact hrun2, ?_, ?_, ?_, hne',
          hz2, hn2⟩
        · intro x
          rw [hcnt2 x, posPart_cons]
          by_cases hx : v = x
          · rw [if_pos hx, if_neg hw, ← hx,
              posPart_eq_zero_of_not_mem (hx ▸ hnotin)]
          · rw [if_neg hx]
        · intro p hp h1
          rcases List.mem_cons.mp hp with he | hp'
          · exfalso
            have : p.2 = w := by rw [he]
            omega
          · exact hc1 p hp' h1
        · intro k hk
          exact hc2 k (fun q hq hq1 => hk q (List.mem_cons_of_mem _ hq) hq1)

theorem idx_ins (relid : RelId) (kf : V → V) :
    ∀ (L : DeltaSet V) (e : IndexedValSet V) (d : DeltaSet V)
      (acc : List (Update V)),
      NodupKeys L →
      (∀ p ∈ L, p.2 = 1 ∨ p.2 = -1) →
      NodupKeys e →
      (∀ p ∈ L, p.2 = -1 → imLookup e (kf p.1) = none) →
      (∀ p ∈ L, ∀ q ∈ L, p.2 = -1 → q.2 = -1 → p.1 ≠ q.1 → kf p.1 ≠ kf q.1) →
      ∃ e' d' acc',
        rel_apply_upds (.Indexed kf e d) acc (insOf relid L) =
          .ok (.Indexed kf e' d', acc') ∧
        (∀ x, dsCount d' x = dsCount d x + negPart L x) ∧
        (ZeroFree d → ZeroFree d') ∧ (NodupKeys d → NodupKeys d') := by
  intro L
  induction L with
  | nil =>
      intro e d acc _ _ _ _ _
      exact ⟨e, d, acc, rfl, fun x => by simp [negPart_nil], id, id⟩
  | cons p L ih =>
      intro e d acc hn hpm hne hneg hpw
      obtain ⟨v, w⟩ := p
      have hnotin : v ∉ L.map Prod.fst := (List.nodup_cons.mp hn).1
      have hnL : NodupKeys L := (List.nodup_cons.mp hn).2
      have hpmL : ∀ p ∈ L, p.2 = 1 ∨ p.2 = -1 := fun p hp =>
        hpm p (List.mem_cons_of_mem _ hp)
      have hpwL : ∀ p ∈ L, ∀ q ∈ L, p.2 = -1 → q.2 = -1 → p.1 ≠ q.1 →
          kf p.1 ≠ kf q.1 := fun p hp q hq =>
        hpw p (List.mem_cons_of_mem _ hp) q (List.mem_cons_of_mem _ hq)
      by_cases hw : 0 ≤ w
      · have hstep : insOf relid ((v, w) :: L) = insOf relid L := by
          rw [insOf, List.flatMap_cons, if_pos hw, ← insOf, List.nil_append]
        have hnegL : ∀ p ∈ L, p.2 = -1 → imLookup e (kf p.1) = none :=
          fun p hp h1 => hneg p (List.mem_cons_of_mem _ hp) h1
        obtain ⟨e', d', acc', hrun2, hcnt2, hz2, hn2⟩ :=
          ih e d acc hnL hpmL hne hnegL hpwL
        refine ⟨e', d', acc', by rw [hstep]; exact hrun2, ?_, hz2, hn2⟩
        intro x
        rw [hcnt2 x, negPart_cons]
        by_cases hx : v = x
        · rw [if_pos hx, if_pos hw, ← hx,
            negPart_eq_zero_of_not_mem (hx ▸ hnotin)]
        · rw [if_neg hx]
      · have hw1 : w = -1 := by
          rcases hpm (v, w) (List.mem_cons_self _ _) with h1 | h1 <;>
            simp at h1 <;> omega
        have hl : imLookup e (kf v) = none :=
          hneg (v, w) (List.mem_cons_self _ _) (by simpa using hw1)
        have hstep : insOf relid ((v, w) :: L) =
            Update.Insert relid v :: insOf relid L := by
          rw [insOf, List.flatMap_cons, if_neg hw, hw1, ← insOf]
          rfl
        have hnegL : ∀ p ∈ L, p.2 = -1 →
            imLookup ((kf v, v) :: e) (kf p.1) = none := by
          intro p hp h1
          have hvne : p.1 ≠ v := by
            intro he
            exact hnotin (he ▸ List.mem_map.mpr ⟨p, hp, rfl⟩)
          have hkne : kf v ≠ kf p.1 :=
            hpw (v, w) (List.mem_cons_self _ _) p (List.mem_cons_of_mem _ hp)
              (by simpa using hw1) h1 (fun he => hvne he.symm)
          rw [imLookup_cons]
          simp only [hkne, if_false]
          exact hneg p (List.mem_cons_of_mem _ hp) h1
        have hne1 : NodupKeys ((kf v, v) :: e) :=
          List.Nodup.cons (imLookup_eq_none_iff.mp hl) hne
        obtain ⟨e', d', acc', hrun2, hcnt2, hz2, hn2⟩ :=
          ih ((kf v, v) :: e) (delta_inc d v) (acc ++ [Update.Insert relid v])
            hnL hpmL hne1 hnegL hpwL
        refine ⟨e', d', acc', ?_, ?_, fun h => hz2 (h.delta_inc_zf v),
          fun h => hn2 (h.delta_inc_nk v)⟩
        · rw [hstep]
          simpa [rel_apply_upds, apply_update_rel, indexed_set_update, hl,
            Except.map] using hrun2
        · intro x
          rw [hcnt2 x, dsCount_inc_if, negPart_cons]
          by_cases hx : v = x
          · rw [if_pos hx, if_pos hx, if_neg hw, hw1, ← hx,
              negPart_eq_zero_of_not_mem (hx ▸ hnotin)]
            omega
          · rw [if_neg hx, if_neg hx]
            omega

/-- Undoing an indexed relation's delta empties it. -/
theorem idx_undo (relid : RelId) (kf : V → V) (e : IndexedValSet V)
    (d : DeltaSet V) (acc : List (Update V))
    (hn : NodupKeys d) (hne : NodupKeys e) (hkc : KeyConsistent kf e)
    (hinv : ∀ p ∈ d,
      (p.2 = 1 ∧ imLookup e (kf p.1) = some p.1) ∨
      (p.2 = -1 ∧ imLookup e (kf p.1) ≠ some p.1 ∧
        ∀ a, imLookup e (kf p.1) = some a → dsCount d a = 1))
    (hpw : ∀ p ∈ d, ∀ q ∈ d, p.2 = -1 → q.2 = -1 → p.1 ≠ q.1 →
      kf p.1 ≠ kf q.1) :
    ∃ e' acc',
      rel_apply_upds (.Indexed kf e d) acc
          (RunningProgram.delta_undo_updates relid d) =
        .ok (.Indexed kf e' [], acc') := by
  have hz : ZeroFree d := by
    intro p hp
    rcases hinv p hp with ⟨h1, _⟩ | ⟨h1, _⟩ <;> omega
  have hpm : ∀ p ∈ d, p.2 = 1 ∨ p.2 = -1 := by
    intro p hp
    rcases hinv p hp with ⟨h1, _⟩ | ⟨h1, _⟩ <;> [exact Or.inl h1; exact Or.inr h1]
  have hpos : ∀ p ∈ d, p.2 = 1 → imLookup e (kf p.1) = some p.1 := by
    intro p hp h1
    rcases hinv p hp with ⟨_, h2⟩ | ⟨h2, _⟩
    · exact h2
    · omega
  rw [delta_undo_updates_eq, rel_apply_upds_append]
  obtain ⟨e1, d1, acc1, hrun1, hcnt1, hc1, hc2, hne1, hz1, hn1⟩ :=
    idx_dels relid kf d e d acc hn hpm hne hpos
  rw [hrun1]
  have hneg1 : ∀ p ∈ d, p.2 = -1 → imLookup e1 (kf p.1) = none := by
    intro p hp h1
    rcases hinv p hp with ⟨h2, _⟩ | ⟨_, hne2, hsome⟩
    · omega
    · cases hcase : imLookup e (kf p.1) with
      | none =>
          rw [hc2 (kf p.1) ?_]
          · exact hcase
          · intro q hq hq1 he
            have := hpos q hq hq1
            rw [he, hcase] at this
            cases this
      | some a =>
          have hda : dsCount d a = 1 := hsome a hcase
          have hmem : (a, (1 : Int)) ∈ d := mem_of_dsCount_one hda
          have hka : kf a = kf p.1 := hkc.lookup hcase
          have := hc1 (a, 1) hmem rfl
          rw [hka] at this
          exact this
  obtain ⟨e2, d2, acc2, hrun2, hcnt2, hz2, hn2⟩ :=
    idx_ins relid kf d e1 d1 acc1 hn hpm hne1 hneg1 hpw
  have hzero : ∀ x, dsCount d2 x = 0 := by
    intro x
    rw [hcnt2 x, hcnt1 x]
    have := posPart_add_negPart d x
    omega
  have : d2 = [] := eq_nil_of_forall_dsCount_zero (hz2 (hz1 hz)) hzero
  subst this
  exact ⟨e2, acc2, hrun2⟩

/-- The per-relation invariants under which a transaction can be rolled
back.  These hold on states reachable inside a transaction: delta weights of
set-semantics relations are ±1 by delta conservation, positive entries are
present and negative entries absent, and for indexed relations the store is
keyed consistently (mutators preserve keys). -/
def RelUndoable : RelationInstance V → Prop
  | .Stream d => ZeroFree d ∧ NodupKeys d
  | .Multiset _ d => ZeroFree d ∧ NodupKeys d
  | .Flat s d => NodupKeys d ∧
      ∀ p ∈ d, (p.2 = 1 ∧ p.1 ∈ s) ∨ (p.2 = -1 ∧ p.1 ∉ s)
  | .Indexed kf e d => NodupKeys d ∧ NodupKeys e ∧ KeyConsistent kf e ∧
      (∀ p ∈ d,
        (p.2 = 1 ∧ imLookup e (kf p.1) = some p.1) ∨
        (p.2 = -1 ∧ imLookup e (kf p.1) ≠ some p.1 ∧
          ∀ a, imLookup e (kf p.1) = some a → dsCount d a = 1)) ∧
      (∀ p ∈ d, ∀ q ∈ d, p.2 = -1 → q.2 = -1 → p.1 ≠ q.1 → kf p.1 ≠ kf q.1)

/-- Undoing any undoable relation's delta succeeds and empties the delta. -/
theorem rel_undo (relid : RelId) (rel : RelationInstance V)
    (acc : List (Update V)) (h : RelUndoable rel) :
    ∃ rel' acc',
      rel_apply_upds rel acc
          (RunningProgram.delta_undo_updates relid rel.delta) =
        .ok (rel', acc') ∧ rel'.delta = [] := by
  cases rel with
  | Stream d =>
      obtain ⟨hz, hn⟩ := h
      obtain ⟨acc', hrun⟩ := stream_undo relid d acc hz hn
      exact ⟨.Stream [], acc', hrun, rfl⟩
  | Multiset e d =>
      obtain ⟨hz, hn⟩ := h
      obtain ⟨e', acc', hrun⟩ := mset_undo relid e d acc hz hn
      exact ⟨.Multiset e' [], acc', hrun, rfl⟩
  | Flat s d =>
      obtain ⟨hn, hinv⟩ := h
      obtain ⟨s', acc', hrun⟩ := flat_undo relid s d acc hn hinv
      exact ⟨.Flat s' [], acc', hrun, rfl⟩
  | Indexed kf e d =>
      obtain ⟨hn, hne, hkc, hinv, hpw⟩ := h
      obtain ⟨e', acc', hrun⟩ := idx_undo relid kf e d acc hn hne hkc hinv hpw
      exact ⟨.Indexed kf e' [], acc', hrun, rfl⟩

theorem relSet_cons (p : RelId × RelationInstance V)
    (rels : List (RelId × RelationInstance V)) (rid : RelId)
    (rel : RelationInstance V) :
    RunningProgram.relSet (p :: rels) rid rel =
      (if p.1 = rid then (rid, rel) else p) ::
        RunningProgram.relSet rels rid rel := by
  simp [RunningProgram.relSet]

theorem relSet_keys (rels : List (RelId × RelationInstance V)) (rid : RelId)
    (rel : RelationInstance V) :
    (RunningProgram.relSet rels rid rel).map Prod.fst = rels.map Prod.fst := by
  induction rels with
  | nil => rfl
  | cons p rels ih =>
      by_cases h : p.1 = rid <;> simp [relSet_cons, h, ih]

theorem NodupKeys.relSet {rels : List (RelId × RelationInstance V)}
    (hn : NodupKeys rels) (rid : RelId) (rel : RelationInstance V) :
    NodupKeys (RunningProgram.relSet rels rid rel) := by
  unfold NodupKeys
  rw [relSet_keys]
  exact hn

theorem relGet_relSet_self (rels : List (RelId × RelationInstance V))
    (rid : RelId) (rel : RelationInstance V) :
    RunningProgram.relGet (RunningProgram.relSet rels rid rel) rid =
      (RunningProgram.relGet rels rid).map (fun _ => rel) := by
  induction rels with
  | nil => rfl
  | cons p rels ih =>
      by_cases h : p.1 = rid <;> simp [relSet_cons, h, relGet_cons, ih]

theorem relGet_relSet_ne {rid k : RelId}
    (rels : List (RelId × RelationInstance V)) (rel : RelationInstance V)
    (h : k ≠ rid) :
    RunningProgram.relGet (RunningProgram.relSet rels rid rel) k =
      RunningProgram.relGet rels k := by
  induction rels with
  | nil => rfl
  | cons p rels ih =>
      by_cases hp : p.1 = rid
      · have hrk : rid ≠ k := fun he => h he.symm
        simp [relSet_cons, hp, relGet_cons, hrk, ih]
      · simp [relSet_cons, hp, relGet_cons, ih]

theorem relSet_relSet (rels : List (RelId × RelationInstance V)) (rid : RelId)
    (a b : RelationInstance V) :
    RunningProgram.relSet (RunningProgram.relSet rels rid a) rid b =
      RunningProgram.relSet rels rid b := by
  induction rels with
  | nil => rfl
  | cons p rels ih =>
      by_cases h : p.1 = rid <;> simp [relSet_cons, h, ih]

theorem relSet_eq_of_forall_ne {rels : List (RelId × RelationInstance V)}
    {rid : RelId} (rel : RelationInstance V)
    (h : ∀ q ∈ rels, q.1 ≠ rid) :
    RunningProgram.relSet rels rid rel = rels := by
  induction rels with
  | nil => rfl
  | cons p rels ih =>
      rw [relSet_cons, if_neg (h p (List.mem_cons_self _ _)),
        ih (fun q hq => h q (List.mem_cons_of_mem _ hq))]

theorem relSet_self {rels : List (RelId × RelationInstance V)} {rid : RelId}
    {rel : RelationInstance V} (hn : NodupKeys rels)
    (hg : RunningProgram.relGet rels rid = some rel) :
    RunningProgram.relSet rels rid rel = rels := by
  induction rels with
  | nil => rfl
  | cons p rels ih =>
      rw [relGet_cons] at hg
      by_cases h : p.1 = rid
      · rw [if_pos h] at hg
        have h2 : p.2 = rel := by injection hg
        have hrest : ∀ q ∈ rels, q.1 ≠ rid := by
          intro q hq he
          exact (List.nodup_cons.mp hn).1
            ((h.trans he.symm) ▸ List.mem_map.mpr ⟨q, hq, rfl⟩)
        rw [relSet_cons, if_pos h, ← h, ← h2,
          relSet_eq_of_forall_ne p.2 (h ▸ hrest)]
      · rw [if_neg h] at hg
        rw [relSet_cons, if_neg h, ih (List.nodup_cons.mp hn).2 hg]

/-- A run of the validation loop over updates that all target relation `r`
acts exactly as the per-relation fold on `r` and leaves all other relations
untouched. -/
theorem upd_loop_target (r : RelId) :
    ∀ (us : List (Update V)) (rels : List (RelId × RelationInstance V))
      (acc : List (Update V)) (rel rel' : RelationInstance V)
      (acc' : List (Update V)),
      NodupKeys rels →
      (∀ u ∈ us, u.relid = r) →
      RunningProgram.relGet rels r = some rel →
      rel_apply_upds rel acc us = .ok (rel', acc') →
      RunningProgram.upd_loop (fun _ => .ok ()) rels acc us =
        (RunningProgram.relSet rels r rel', acc', none) := by
  intro us
  induction us with
  | nil =>
      intro rels acc rel rel' acc' hn _ hg hok
      simp only [rel_apply_upds, Except.ok.injEq, Prod.mk.injEq] at hok
      obtain ⟨rfl, rfl⟩ := hok
      rw [relSet_self hn hg]
      rfl
  | cons u us ih =>
      intro rels acc rel rel' acc' hn hall hg hok
      have hur : u.relid = r := hall u (List.mem_cons_self _ _)
      rw [show rel_apply_upds rel acc (u :: us) =
          (match apply_update_rel rel u acc with
           | .error e => .error e
           | .ok (rel1, acc1) => rel_apply_upds rel1 acc1 us) from rfl] at hok
      cases ha : apply_update_rel rel u acc with
      | error e => rw [ha] at hok; cases hok
      | ok p =>
          obtain ⟨rel1, acc1⟩ := p
          rw [ha] at hok
          have hok' : rel_apply_upds rel1 acc1 us = .ok (rel', acc') := hok
          simp only [RunningProgram.upd_loop, hur, hg]
          rw [ha]
          show RunningProgram.upd_loop (fun _ => Except.ok ())
              (RunningProgram.relSet rels r rel1) acc1 us =
            (RunningProgram.relSet rels r rel', acc', none)
          have hg1 : RunningProgram.relGet
              (RunningProgram.relSet rels r rel1) r = some rel1 := by
            rw [relGet_relSet_self, hg]
            rfl
          rw [ih (RunningProgram.relSet rels r rel1) acc1 rel1 rel' acc'
            (hn.relSet r rel1) (fun v hv => hall v (List.mem_cons_of_mem _ hv))
            hg1 hok']
          rw [relSet_relSet]

/-- Every update synthesized by `delta_undo_updates` targets its relation. -/
theorem delta_undo_updates_relid (relid : RelId) (ds : DeltaSet V) :
    ∀ u ∈ RunningProgram.delta_undo_updates relid ds, u.relid = relid := by
  intro u hu
  rw [delta_undo_updates_eq] at hu
  rcases List.mem_append.mp hu with h | h
  · obtain ⟨p, _, hp⟩ := List.mem_flatMap.mp h
    split at hp
    · rw [List.eq_of_mem_replicate hp]
      rfl
    · cases hp
  · obtain ⟨p, _, hp⟩ := List.mem_flatMap.mp h
    split at hp
    · cases hp
    · rw [List.eq_of_mem_replicate hp]
      rfl

/-- Applying, relation by relation, the inverse updates synthesized from a
snapshot `S` of the relations: the loop succeeds and every relation whose
delta was not already empty ends with an empty delta. -/
theorem undo_all :
    ∀ (S rels : List (RelId × RelationInstance V)) (acc : List (Update V)),
      NodupKeys S →
      NodupKeys rels →
      (∀ q ∈ S, RunningProgram.relGet rels q.1 = some q.2 ∧ RelUndoable q.2) →
      (∀ p ∈ rels, p.1 ∉ S.map Prod.fst → p.2.delta = []) →
      ∃ rels' acc',
        RunningProgram.upd_loop (fun _ => .ok ()) rels acc
            (S.flatMap fun q =>
              RunningProgram.delta_undo_updates q.1 q.2.delta) =
          (rels', acc', none) ∧
        (∀ p ∈ rels', p.2.delta = []) := by
  intro S
  induction S with
  | nil =>
      intro rels acc _ _ _ hrest
      refine ⟨rels, acc, by simp [RunningProgram.upd_loop], ?_⟩
      intro p hp
      exact hrest p hp (by simp)
  | cons q S ih =>
      intro rels acc hnS hn hS hrest
      have hq := hS q (List.mem_cons_self _ _)
      obtain ⟨rel', acc1, hrun1, hdelta'⟩ :=
        rel_undo q.1 q.2 acc hq.2
      have hloop1 := upd_loop_target q.1
        (RunningProgram.delta_undo_updates q.1 q.2.delta) rels acc q.2 rel'
        acc1 hn (delta_undo_updates_relid q.1 q.2.delta) hq.1 hrun1
      have hnotin : q.1 ∉ S.map Prod.fst := (List.nodup_cons.mp hnS).1
      have hS' : ∀ q' ∈ S,
          RunningProgram.relGet (RunningProgram.relSet rels q.1 rel') q'.1 =
            some q'.2 ∧ RelUndoable q'.2 := by
        intro q' hq'
        have hne : q'.1 ≠ q.1 := by
          intro he
          exact hnotin (he ▸ List.mem_map.mpr ⟨q', hq', rfl⟩)
        rw [relGet_relSet_ne rels rel' hne]
        exact hS q' (List.mem_cons_of_mem _ hq')
      have hrest' : ∀ p ∈ RunningProgram.relSet rels q.1 rel',
          p.1 ∉ S.map Prod.fst → p.2.delta = [] := by
        intro p hp hpn
        obtain ⟨p0, hp0, hpe⟩ := List.mem_map.mp hp
        by_cases hk : p0.1 = q.1
        · rw [if_pos hk] at hpe
          rw [← hpe]
          exact hdelta'
        · rw [if_neg hk] at hpe
          subst hpe
          refine hrest p0 hp0 ?_
          simp only [List.map_cons, List.mem_cons]
          rintro (he | he)
          · exact hk he
          · exact hpn he
      obtain ⟨rels', acc', hrun2, hempty⟩ :=
        ih (RunningProgram.relSet rels q.1 rel') acc1
          (List.nodup_cons.mp hnS).2 (hn.relSet q.1 rel') hS' hrest'
      refine ⟨rels', acc', ?_, hempty⟩
      rw [List.flatMap_cons, upd_loop_append, hloop1]
      exact hrun2

/-- If the validation loop succeeds, `apply_updates` returns `Ok`. -/
theorem apply_updates_ok {st : RunningProgram V} {us : List (Update V)}
    {inspect : Update V → Except String Unit}
    {rels' : List (RelId × RelationInstance V)} {filtered : List (Update V)}
    (htip : st.transaction_in_progress = true)
    (h : RunningProgram.upd_loop inspect st.relations [] us =
      (rels', filtered, none)) :
    (st.apply_updates us inspect).2 = .ok () := by
  unfold RunningProgram.apply_updates
  rw [htip]
  simp only [if_true, h]
  by_cases hf : filtered.isEmpty <;> simp [hf]

/-- `delta_undo` on a state whose relations are all undoable succeeds and
leaves every delta empty. -/
theorem delta_undo_ok (st : RunningProgram V)
    (htip : st.transaction_in_progress = true)
    (hn : NodupKeys st.relations)
    (hund : ∀ p ∈ st.relations, RelUndoable p.2) :
    (st.delta_undo).2 = .ok () ∧
    ∀ p ∈ (st.delta_undo).1.relations, p.2.delta = [] := by
  obtain ⟨rels', acc', hloop, hempty⟩ :=
    undo_all st.relations st.relations [] hn hn
      (fun q hq => ⟨relGet_eq_of_mem hn hq, hund q hq⟩)
      (fun p hp hnot => absurd (List.mem_map.mpr ⟨p, hp, rfl⟩) hnot)
  have happ2 : (st.apply_updates
      (st.relations.flatMap fun q =>
        RunningProgram.delta_undo_updates q.1 q.2.delta)
      (fun _ => .ok ())).2 = .ok () :=
    apply_updates_ok htip hloop
  have happrel : (st.apply_updates
      (st.relations.flatMap fun q =>
        RunningProgram.delta_undo_updates q.1 q.2.delta)
      (fun _ => .ok ())).1.relations = rels' := by
    rw [apply_updates_relations _ _ _ htip, hloop]
  rcases happ : st.apply_updates
      (st.relations.flatMap fun q =>
        RunningProgram.delta_undo_updates q.1 q.2.delta)
      (fun _ => .ok ()) with ⟨st2, r2⟩
  rw [happ] at happ2 happrel
  simp only at happ2 happrel
  subst happ2
  have hdu : st.delta_undo = (RunningProgram.flush st2, .ok ()) := by
    unfold RunningProgram.delta_undo
    simp only [happ]
  rw [hdu]
  refine ⟨rfl, ?_⟩
  intro p hp
  rw [RunningProgram.flush_relations, happrel] at hp
  exact hempty p hp

/-- Does the update delete the value `v`? -/
def isDelOf (v : V) : Update V → Bool
  | .DeleteValue _ x => decide (x = v)
  | _ => false

/-- Does the update insert the value `v`? -/
def isInsOf (v : V) : Update V → Bool
  | .Insert _ x => decide (x = v)
  | _ => false

theorem countP_replicate (p : α → Bool) (a : α) (n : Nat) :
    (List.replicate n a).countP p = if p a then n else 0 := by
  induction n with
  | zero => simp
  | succ n ih =>
      rw [List.replicate_succ, List.countP_cons]
      by_cases h : p a <;> simp [h] at ih ⊢ <;> omega

theorem delsOf_shape (relid : RelId) (L : DeltaSet V) :
    ∀ u ∈ delsOf relid L, ∃ x, u = Update.DeleteValue relid x := by
  intro u hu
  obtain ⟨p, _, hp⟩ := List.mem_flatMap.mp hu
  split at hp
  · exact ⟨p.1, List.eq_of_mem_replicate hp⟩
  · cases hp

theorem insOf_shape (relid : RelId) (L : DeltaSet V) :
    ∀ u ∈ insOf relid L, ∃ x, u = Update.Insert relid x := by
  intro u hu
  obtain ⟨p, _, hp⟩ := List.mem_flatMap.mp hu
  split at hp
  · cases hp
  · exact ⟨p.1, List.eq_of_mem_replicate hp⟩

theorem countP_delsOf (relid : RelId) (v : V) :
    ∀ (L : DeltaSet V), NodupKeys L →
      (delsOf relid L).countP (isDelOf v) = (posPart L v).toNat := by
  intro L
  induction L with
  | nil => simp [delsOf, posPart_nil]
  | cons p L ih =>
      intro hn
      obtain ⟨x, w⟩ := p
      have hnotin : x ∉ L.map Prod.fst := (List.nodup_cons.mp hn).1
      have hnL : NodupKeys L := (List.nodup_cons.mp hn).2
      rw [delsOf, List.flatMap_cons, ← delsOf, List.countP_append, ih hnL,
        posPart_cons]
      by_cases hx : x = v
      · rw [if_pos hx, ← hx, posPart_eq_zero_of_not_mem hnotin]
        by_cases hw : 0 ≤ w
        · rw [if_pos hw, if_pos hw, countP_replicate]
          simp [isDelOf]
        · rw [if_neg hw, if_neg hw]
          simp
      · rw [if_neg hx]
        by_cases hw : 0 ≤ w
        · rw [if_pos hw, countP_replicate]
          simp [isDelOf, hx]
        · rw [if_neg hw]
          simp

theorem countP_insOf (relid : RelId) (v : V) :
    ∀ (L : DeltaSet V), NodupKeys L →
      (insOf relid L).countP (isInsOf v) = (negPart L v).toNat := by
  intro L
  induction L with
  | nil => simp [insOf, negPart_nil]
  | cons p L ih =>
      intro hn
      obtain ⟨x, w⟩ := p
      have hnotin : x ∉ L.map Prod.fst := (List.nodup_cons.mp hn).1
      have hnL : NodupKeys L := (List.nodup_cons.mp hn).2
      rw [insOf, List.flatMap_cons, ← insOf, List.countP_append, ih hnL,
        negPart_cons]
      by_cases hx : x = v
      · rw [if_pos hx, ← hx, negPart_eq_zero_of_not_mem hnotin]
        by_cases hw : 0 ≤ w
        · rw [if_pos hw, if_pos hw]
          simp
        · rw [if_neg hw, if_neg hw, countP_replicate]
          simp [isInsOf]
      · rw [if_neg hx]
        by_cases hw : 0 ≤ w
        · rw [if_pos hw]
          simp
        · rw [if_neg hw, countP_replicate]
          simp [isInsOf, hx]

theorem countP_delsOf_ins (relid : RelId) (v : V) (L : DeltaSet V) :
    (delsOf relid L).countP (isInsOf v) = 0 := by
  rw [List.countP_eq_zero]
  intro u hu
  obtain ⟨x, hx⟩ := delsOf_shape relid L u hu
  subst hx
  simp [isInsOf]

theorem countP_insOf_del (relid : RelId) (v : V) (L : DeltaSet V) :
    (insOf relid L).countP (isDelOf v) = 0 := by
  rw [List.countP_eq_zero]
  intro u hu
  obtain ⟨x, hx⟩ := insOf_shape relid L u hu
  subst hx
  simp [isDelOf]

/-- On an open transaction whose relations satisfy the in-transaction
invariants, `transaction_rollback` succeeds and empties every delta. -/
theorem transaction_rollback_ok (st : RunningProgram V)
    (htip : st.transaction_in_progress = true)
    (hn : NodupKeys st.relations)
    (hund : ∀ p ∈ st.relations, RelUndoable p.2) :
    (st.transaction_rollback).2 = .ok () ∧
    (∀ p ∈ (st.transaction_rollback).1.relations, p.2.delta = []) := by
  have htip1 : (RunningProgram.flush st).transaction_in_progress = true := by
    rw [RunningProgram.flush_tip]; exact htip
  have hn1 : NodupKeys (RunningProgram.flush st).relations := by
    rw [RunningProgram.flush_relations]; exact hn
  have hund1 : ∀ p ∈ (RunningProgram.flush st).relations, RelUndoable p.2 := by
    rw [RunningProgram.flush_relations]; exact hund
  obtain ⟨hok, hempty⟩ := delta_undo_ok (RunningProgram.flush st) htip1 hn1 hund1
  rcases hdu : (RunningProgram.flush st).delta_undo with ⟨st', r⟩
  rw [hdu] at hok hempty
  simp only at hok hempty
  subst hok
  have hrb : st.transaction_rollback =
      ({ st' with transaction_in_progress := false }, .ok ()) := by
    unfold RunningProgram.transaction_rollback
    rw [htip]
    simp only [if_true, hdu]
  rw [hrb]
  exact ⟨rfl, hempty⟩

/-- **C2.** `transaction_rollback` synthesizes the inverse update stream
from the delta sets: for each delta entry with positive weight `w` it issues
`w` `DeleteValue` updates and for each entry with negative weight it issues
`|w|` `Insert` updates (counted by `posPart`/`negPart`), with, per relation,
all deletes issued before all inserts; the stream is applied as a normal
update batch (via `apply_updates` inside `delta_undo`), the rollback
succeeds, and afterwards every relation's delta set is empty.  The
hypotheses are the in-transaction representation invariants (`RelUndoable`,
established by delta conservation from the last commit). -/
theorem transaction_rollback_semantics (st : RunningProgram V)
    (htip : st.transaction_in_progress = true)
    (hn : NodupKeys st.relations)
    (hund : ∀ p ∈ st.relations, RelUndoable p.2) :
    (∀ (relid : RelId) (ds : DeltaSet V) (v : V), NodupKeys ds →
      (RunningProgram.delta_undo_updates relid ds).countP (isDelOf v) =
        (posPart ds v).toNat ∧
      (RunningProgram.delta_undo_updates relid ds).countP (isInsOf v) =
        (negPart ds v).toNat) ∧
    (∀ (relid : RelId) (ds : DeltaSet V),
      ∃ dels ins,
        RunningProgram.delta_undo_updates relid ds = dels ++ ins ∧
        (∀ u ∈ dels, ∃ x, u = Update.DeleteValue relid x) ∧
        (∀ u ∈ ins, ∃ x, u = Update.Insert relid x)) ∧
    (st.transaction_rollback).2 = .ok () ∧
    (∀ p ∈ (st.transaction_rollback).1.relations, p.2.delta = []) := by
  refine ⟨?_, ?_, ?_⟩
  · intro relid ds v hnds
    rw [delta_undo_updates_eq, List.countP_append, List.countP_append,
      countP_delsOf relid v ds hnds, countP_insOf relid v ds hnds,
      countP_delsOf_ins, countP_insOf_del]
    omega
  · intro relid ds
    exact ⟨delsOf relid ds, insOf relid ds, delta_undo_updates_eq relid ds,
      delsOf_shape relid ds, insOf_shape relid ds⟩
  · obtain ⟨hok, hempty⟩ := transaction_rollback_ok st htip hn hund
    exact ⟨hok, hempty⟩

/-- Witness for `transaction_rollback_semantics`: roll back a transaction
that inserted value 5 into a flat-set relation; the delta is emptied. -/
theorem transaction_rollback_semantics_witness :
    ((RunningProgram.transaction_rollback
      { relations := [(0, RelationInstance.Flat [5] [((5 : Nat), (1 : Int))])]
        transaction_in_progress := true
        need_to_flush := true
        timestamp := 3
        num_workers := 1
        sent := []
        worker_round_robbin := 0 }).2 = .ok ()) ∧
    (∀ p ∈ (RunningProgram.transaction_rollback
      { relations := [(0, RelationInstance.Flat [5] [((5 : Nat), (1 : Int))])]
        transaction_in_progress := true
        need_to_flush := true
        timestamp := 3
        num_workers := 1
        sent := []
        worker_round_robbin := 0 }).1.relations, p.2.delta = []) := by
  have h := transaction_rollback_semantics
    (V := Nat)
    { relations := [(0, RelationInstance.Flat [5] [((5 : Nat), (1 : Int))])]
      transaction_in_progress := true
      need_to_flush := true
      timestamp := 3
      num_workers := 1
      sent := []
      worker_round_robbin := 0 }
    rfl (by simp [NodupKeys])
    (by
      intro p hp
      rcases List.mem_singleton.mp hp with rfl
      refine ⟨by simp [NodupKeys], ?_⟩
      intro q hq
      rcases List.mem_singleton.mp hq with rfl
      exact Or.inl ⟨rfl, by simp⟩)
  exact ⟨h.2.2.1, h.2.2.2⟩

/-- **C8 as stated is false**: `apply_updates` can also fail while a
transaction *is* in progress, on per-update validation (here: a duplicate
key insert into an indexed relation). -/
theorem apply_updates_fails_inside_transaction :
    ({ relations := [(0, RelationInstance.Indexed (fun n => n) [(1, 1)] [])]
       transaction_in_progress := true
       need_to_flush := false
       timestamp := 0
       num_workers := 1
       sent := []
       worker_round_robbin := 0 } :
        RunningProgram Nat).transaction_in_progress = true ∧
    (RunningProgram.apply_updates
      { relations := [(0, RelationInstance.Indexed (fun n => n) [(1, 1)] [])]
        transaction_in_progress := true
        need_to_flush := false
        timestamp := 0
        num_workers := 1
        sent := []
        worker_round_robbin := 0 }
      [Update.Insert 0 (1 : Nat)] (fun _ => .ok ())).2 =
      .error "Insert: duplicate key" :=
  ⟨rfl, rfl⟩

/-- **C8 (amended).** `transaction_start` fails exactly when a transaction
is already in progress; `transaction_commit` fails exactly when no
transaction is in progress; `transaction_rollback` fails when no
transaction is in progress and succeeds on an open transaction whose
relations satisfy the in-transaction invariants; `apply_updates` fails
whenever no transaction is in progress, but may also fail inside a
transaction on per-update validation.  On each no-transaction failure (and
on `transaction_start`'s failure) the transaction flag, the timestamp, and
every relation's element and delta stores are unchanged: the failing call
returns the state untouched. -/
theorem transaction_op_failures (st : RunningProgram V) :
    (st.transaction_in_progress = true →
      st.transaction_start = (st, .error "transaction already in progress")) ∧
    (st.transaction_in_progress = false → (st.transaction_start).2 = .ok ()) ∧
    (st.transaction_in_progress = false →
      st.transaction_commit =
        (st, .error "transaction_commit: no transaction in progress")) ∧
    (st.transaction_in_progress = true → (st.transaction_commit).2 = .ok ()) ∧
    (st.transaction_in_progress = false →
      st.transaction_rollback =
        (st, .error "transaction_rollback: no transaction in progress")) ∧
    (st.transaction_in_progress = true → NodupKeys st.relations →
      (∀ p ∈ st.relations, RelUndoable p.2) →
      (st.transaction_rollback).2 = .ok ()) ∧
    (∀ (us : List (Update V)) (inspect : Update V → Except String Unit),
      st.transaction_in_progress = false →
      st.apply_updates us inspect =
        (st, .error "apply_updates: no transaction in progress")) := by
  refine ⟨?_, ?_, ?_, ?_, ?_, ?_, ?_⟩
  · intro h
    unfold RunningProgram.transaction_start
    rw [h]
    rfl
  · intro h
    unfold RunningProgram.transaction_start
    rw [h]
    rfl
  · intro h
    unfold RunningProgram.transaction_commit
    rw [h]
    rfl
  · intro h
    unfold RunningProgram.transaction_commit
    rw [h]
    rfl
  · intro h
    unfold RunningProgram.transaction_rollback
    rw [h]
    rfl
  · intro h hn hund
    exact (transaction_rollback_ok st h hn hund).1
  · intro us inspect h
    unfold RunningProgram.apply_updates
    rw [h]
    rfl

/-- Witness for `transaction_op_failures` at concrete idle and
in-transaction states. -/
theorem transaction_op_failures_witness :
    (RunningProgram.transaction_start
      { relations := ([] : List (RelId × RelationInstance Nat))
        transaction_in_progress := true
        need_to_flush := false
        timestamp := 0
        num_workers := 1
        sent := []
        worker_round_robbin := 0 } =
      ({ relations := []
         transaction_in_progress := true
         need_to_flush := false
         timestamp := 0
         num_workers := 1
         sent := []
         worker_round_robbin := 0 }, .error "transaction already in progress")) ∧
    (RunningProgram.transaction_commit
      { relations := ([] : List (RelId × RelationInstance Nat))
        transaction_in_progress := false
        need_to_flush := false
        timestamp := 0
        num_workers := 1
        sent := []
        worker_round_robbin := 0 } =
      ({ relations := []
         transaction_in_progress := false
         need_to_flush := false
         timestamp := 0
         num_workers := 1
         sent := []
         worker_round_robbin := 0 },
        .error "transaction_commit: no transaction in progress")) := by
  constructor
  · exact (transaction_op_failures
      { relations := ([] : List (RelId × RelationInstance Nat))
        transaction_in_progress := true
        need_to_flush := false
        timestamp := 0
        num_workers := 1
        sent := []
        worker_round_robbin := 0 }).1 rfl
  · exact (transaction_op_failures
      { relations := ([] : List (RelId × RelationInstance Nat))
        transaction_in_progress := false
        need_to_flush := false
        timestamp := 0
        num_workers := 1
        sent := []
        worker_round_robbin := 0 }).2.2.1 rfl

end Undo

/-! ## The dataflow compiler: streamful and streamless operator chains

The compiler functions `xform_collection_ref` (streamful, used for outermost
rule bodies) and `streamless_xform_collection_ref` (streamless, used inside
SCCs and inside the nested scope opened by `StreamXForm`) are embedded over
a denotational model of collections: an epoch-indexed weighted multiset
`Coll V = Nat → List (V × Int)`.  Arrangements are keyed traces.  Panics
raised during dataflow construction are modelled as `Except.error`.  The
`isTop` flag stands for the scope's timestamp type: the `Differentiate`
downcast of the `+1` summary succeeds exactly in the top-level scope. -/

section Compiler

variable [DecidableEq V]

/-- A collection: for each epoch, a weighted multiset of values. -/
abbrev Coll (V : Type) := Nat → List (V × Int)

/-- A `Map` arrangement's trace: weighted (key, value) pairs per epoch. -/
abbrev ArrTrace (V : Type) := Nat → List ((V × V) × Int)

/-- A `Set` arrangement's trace: weighted keys per epoch. -/
abbrev SetTrace (V : Type) := Nat → List (V × Int)

/-- `enum Arrangement` of the dataflow module (`DataflowArrangement`). -/
inductive DataflowArrangement (V : Type) where
  | Map (arranged : ArrTrace V)
  | Set (arranged : SetTrace V)

/-- `enum ArrangementFlavor`: an arrangement local to the current scope or
imported (foreign) from an outer scope. -/
inductive ArrangementFlavor (V : Type) where
  | Local (a : DataflowArrangement V)
  | Foreign (a : DataflowArrangement V)

/-- `struct Arrangements`: the arrangements in scope, looked up by id. -/
abbrev Arrangements (V : Type) := ArrId → Option (ArrangementFlavor V)

/-- `col.map(mfun)` -/
def collMap (m : V → V) (c : Coll V) : Coll V :=
  fun t => (c t).map (fun p => (m p.1, p.2))

/-- `col.flat_map(move |x| fmfun(x).into_iter().flatten())` -/
def collFlatMap (fm : V → Option (List V)) (c : Coll V) : Coll V :=
  fun t => (c t).flatMap (fun p =>
    match fm p.1 with
    | none => []
    | some vs => vs.map (fun v => (v, p.2)))

/-- `col.filter(ffun)` -/
def collFilter (f : V → Bool) (c : Coll V) : Coll V :=
  fun t => (c t).filter (fun p => f p.1)

/-- `col.flat_map(fmfun)` for a filter-map function. -/
def collFilterMap (fm : V → Option V) (c : Coll V) : Coll V :=
  fun t => (c t).flatMap (fun p =>
    match fm p.1 with
    | none => []
    | some v => [(v, p.2)])

/-- `col.concat(other)` -/
def collConcat (a b : Coll V) : Coll V := fun t => a t ++ b t

/-- `col.negate()` -/
def collNegate (c : Coll V) : Coll V :=
  fun t => (c t).map (fun p => (p.1, -p.2))

/-- `col.delay(...)` with the `+1` timestamp summary: records move one
epoch later. -/
def collDelay (c : Coll V) : Coll V :=
  fun t => match t with
  | 0 => []
  | t + 1 => c t

/-- `col.flat_map(afun).arrange_by_key()` -/
def collArrangeByKey (af : V → Option (V × V)) (c : Coll V) : ArrTrace V :=
  fun t => (c t).flatMap (fun p =>
    match af p.1 with
    | none => []
    | some kv => [(kv, p.2)])

/-- `rel.flat_map(move |v| kfun(&v).map(|k| (k, v)))` -/
def collWithKeys (kf : V → Option V) (c : Coll V) : ArrTrace V :=
  fun t => (c t).flatMap (fun p =>
    match kf p.1 with
    | none => []
    | some k => [((k, p.1), p.2)])

/-- `lookup_map` of a keyed collection against a map arrangement, with the
output function returning `Option` and `None` results dropped
(`.flat_map(|v| v)`); weights multiply. -/
def lookup_map_map (cwk : ArrTrace V) (arr : ArrTrace V)
    (f : V × V → V → Option V) : Coll V :=
  fun t => (cwk t).flatMap (fun q =>
    (arr t).flatMap (fun r =>
      if r.1.1 = q.1.1 then
        match f q.1 r.1.2 with
        | some out => [(out, q.2 * r.2)]
        | none => []
      else []))

/-- `lookup_map` of a keyed collection against a set arrangement. -/
def lookup_map_set (cwk : ArrTrace V) (arr : SetTrace V)
    (f : V × V → Option V) : Coll V :=
  fun t => (cwk t).flatMap (fun q =>
    (arr t).flatMap (fun r =>
      if r.1 = q.1.1 then
        match f q.1 with
        | some out => [(out, q.2 * r.2)]
        | none => []
      else []))

/-- `lookup_map` of a bare key collection against a map arrangement. -/
def lookup_map_keys (ck : Coll V) (arr : ArrTrace V) (f : V → Option V) :
    Coll V :=
  fun t => (ck t).flatMap (fun q =>
    (arr t).flatMap (fun r =>
      if r.1.1 = q.1 then
        match f r.1.2 with
        | some out => [(out, q.2 * r.2)]
        | none => []
      else []))

/-- `arr.join_core(&arranged, jfun)` against a map arrangement. -/
def join_core_map (a : ArrTrace V) (b : ArrTrace V)
    (jf : V → V → V → Option V) : Coll V :=
  fun t => (a t).flatMap (fun q =>
    (b t).flatMap (fun r =>
      if r.1.1 = q.1.1 then
        match jf q.1.1 q.1.2 r.1.2 with
        | some out => [(out, q.2 * r.2)]
        | none => []
      else []))

/-- `arr.join_core(&arranged, jfun)` against a set arrangement (semijoin). -/
def semijoin_core (a : ArrTrace V) (b : SetTrace V)
    (jf : V → V → Unit → Option V) : Coll V :=
  fun t => (a t).flatMap (fun q =>
    (b t).flatMap (fun r =>
      if r.1 = q.1.1 then
        match jf q.1.1 q.1.2 () with
        | some out => [(out, q.2 * r.2)]
        | none => []
      else []))

/-- Total weight a set-arrangement trace gives a key at an epoch. -/
def setWeight (s : List (V × Int)) (k : V) : Int :=
  ((s.filter (fun p => decide (p.1 = k))).map (·.2)).sum

/-- `antijoin_arranged(arr, set)`: keep the pairs whose key is absent from
the set arrangement. -/
def antijoin_arranged (a : ArrTrace V) (b : SetTrace V) : ArrTrace V :=
  fun t => (a t).filter (fun p => decide (setWeight (b t) p.1.1 = 0))

/-- `arr.filter(move |_, v| f(v))` -/
def arrFilter (f : V → Bool) (a : ArrTrace V) : ArrTrace V :=
  fun t => (a t).filter (fun p => f p.1.2)

/-- `arr.flat_map_ref(move |_, v| ...)` (`None` becomes empty). -/
def arrFlatMapRef (fm : V → Option (List V)) (a : ArrTrace V) : Coll V :=
  fun t => (a t).flatMap (fun p =>
    match fm p.1.2 with
    | none => []
    | some vs => vs.map (fun v => (v, p.2)))

/-- `arr.flat_map_ref(move |_, v| fmfun(v.clone()))` for a filter-map. -/
def arrFilterMapRef (fm : V → Option V) (a : ArrTrace V) : Coll V :=
  fun t => (a t).flatMap (fun p =>
    match fm p.1.2 with
    | none => []
    | some v => [(v, p.2)])

/-- Drop the keys of a keyed output (`.map(|(_, v)| v)`). -/
def arrValues (a : ArrTrace V) : Coll V :=
  fun t => (a t).map (fun p => (p.1.2, p.2))

/-- Consolidate a weighted multiset: one entry per distinct value holding
the summed weight, zero-weight values dropped. -/
def consolidate (l : List (V × Int)) : List (V × Int) :=
  ((l.map Prod.fst).dedup).filterMap (fun v =>
    let w := ((l.filter (fun p => decide (p.1 = v))).map (·.2)).sum
    if w = 0 then none else some (v, w))

/-- `arr.reduce(...)` with an aggregation function: invoke `aggfun` on each
key with a nonempty consolidated input, output weight 1 per result. -/
def reduce_agg (a : ArrTrace V) (aggf : V → List (V × Int) → Option V) :
    ArrTrace V :=
  fun t =>
    (((a t).map (fun p => p.1.1)).dedup).flatMap (fun k =>
      let vals := consolidate ((a t).filterMap (fun p =>
        if p.1.1 = k then some (p.1.2, p.2) else none))
      if vals.isEmpty then []
      else
        match aggf k vals with
        | some x => [((k, x), 1)]
        | none => [])

/-- `calculus::Differentiate` (dogsdogsdogs), modelled over epochs: the
change of the collection at each epoch. -/
def calculus_differentiate (c : Coll V) : Coll V :=
  collConcat c (collNegate (collDelay c))

/-- `calculus::Integrate` (dogsdogsdogs), modelled over epochs: the running
accumulation of the changes. -/
def calculus_integrate (c : Coll V) : Coll V :=
  fun t => (List.range (t + 1)).flatMap c

-- `enum XFormArrangement` and `enum XFormCollection`: the operator chain
-- AST (`Box<Option<...>>` links become `Option` fields; operator function
-- pointers become function fields; `OperatorDebugInfo` becomes a string).
mutual
inductive XFormArrangement (V : Type) where
  | FlatMap (debug_info : String) (fmfun : V → Option (List V))
      (next : Option (XFormCollection V))
  | FilterMap (debug_info : String) (fmfun : V → Option V)
      (next : Option (XFormCollection V))
  | Aggregate (debug_info : String) (ffun : Option (V → Bool))
      (aggfun : V → List (V × Int) → Option V)
      (next : Option (XFormCollection V))
  | Join (debug_info : String) (ffun : Option (V → Bool))
      (arrangement : ArrId) (jfun : V → V → V → Option V)
      (next : Option (XFormCollection V))
  | Semijoin (debug_info : String) (ffun : Option (V → Bool))
      (arrangement : ArrId) (jfun : V → V → Unit → Option V)
      (next : Option (XFormCollection V))
  | Antijoin (debug_info : String) (ffun : Option (V → Bool))
      (arrangement : ArrId) (next : Option (XFormCollection V))
  | StreamJoin (debug_info : String) (ffun : Option (V → Bool)) (rel : RelId)
      (kfun : V → Option V) (jfun : V → V → Option V)
      (next : Option (XFormCollection V))
  | StreamSemijoin (debug_info : String) (ffun : Option (V → Bool))
      (rel : RelId) (kfun : V → Option V) (jfun : V → Option V)
      (next : Option (XFormCollection V))

inductive XFormCollection (V : Type) where
  | Arrange (debug_info : String) (afun : V → Option (V × V))
      (next : XFormArrangement V)
  | Differentiate (debug_info : String) (next : Option (XFormCollection V))
  | Map (debug_info : String) (mfun : V → V)
      (next : Option (XFormCollection V))
  | FlatMap (debug_info : String) (fmfun : V → Option (List V))
      (next : Option (XFormCollection V))
  | Filter (debug_info : String) (ffun : V → Bool)
      (next : Option (XFormCollection V))
  | FilterMap (debug_info : String) (fmfun : V → Option V)
      (next : Option (XFormCollection V))
  | Inspect (debug_info : String) (ifun : V → Nat × Nat → Int → Unit)
      (next : Option (XFormCollection V))
  | StreamJoin (debug_info : String) (afun : V → Option (V × V))
      (arrangement : ArrId) (jfun : V → V → Option V)
      (next : Option (XFormCollection V))
  | StreamSemijoin (debug_info : String) (afun : V → Option (V × V))
      (arrangement : ArrId) (jfun : V → Option V)
      (next : Option (XFormCollection V))
  | StreamXForm (debug_info : String) (xform : Option (XFormCollection V))
      (next : Option (XFormCollection V))
end

section CompilerFns

-- The compiler functions.  `isTop` records whether the scope's timestamp
-- is the top-level one (`TS`): the `Differentiate` downcast succeeds
-- exactly there.  Panics during dataflow construction become
-- `Except.error`.
mutual

/-- `Program::xform_collection` (streamful). -/
def xform_collection [DecidableEq V] (isTop : Bool) (col : Coll V)
    (xform : Option (XFormCollection V)) (arrangements : Arrangements V)
    (lookup_collection : RelId → Option (Coll V)) :
    Except String (Coll V) :=
  match xform with
  | none => .ok col
  | some x => xform_collection_ref isTop col x arrangements lookup_collection

/-- `Program::xform_collection_ref` (streamful). -/
def xform_collection_ref [DecidableEq V] (isTop : Bool) (col : Coll V)
    (x : XFormCollection V) (arrangements : Arrangements V)
    (lookup_collection : RelId → Option (Coll V)) :
    Except String (Coll V) :=
  match x with
  | .Arrange _ afun next =>
      xform_arrangement isTop (collArrangeByKey afun col) next arrangements
        lookup_collection
  | .Differentiate _ next =>
      if isTop then
        xform_collection isTop
          (collConcat col (collNegate (collDelay col))) next arrangements
          lookup_collection
      else .error "Differentiate operator used in recursive context"
  | .Map _ mfun next =>
      xform_collection isTop (collMap mfun col) next arrangements
        lookup_collection
  | .FlatMap _ fmfun next =>
      xform_collection isTop (collFlatMap fmfun col) next arrangements
        lookup_collection
  | .Filter _ ffun next =>
      xform_collection isTop (collFilter ffun col) next arrangements
        lookup_collection
  | .FilterMap _ fmfun next =>
      xform_collection isTop (collFilterMap fmfun col) next arrangements
        lookup_collection
  | .Inspect _ _ next =>
      xform_collection isTop col next arrangements lookup_collection
  | .StreamJoin _ afun arrangement jfun next =>
      match arrangements arrangement with
      | some (.Local (.Map arranged)) =>
          xform_collection isTop
            (lookup_map_map (collArrangeByKey afun col) arranged
              (fun q v2 => jfun q.2 v2))
            next arrangements lookup_collection
      | some (.Local (.Set _)) => .error "StreamJoin: not a map arrangement"
      | some (.Foreign _) => .error "StreamJoin in nested scope"
      | none => .error "StreamJoin: arrangement not found"
  | .StreamSemijoin _ afun arrangement jfun next =>
      match arrangements arrangement with
      | some (.Local (.Set arranged)) =>
          xform_collection isTop
            (lookup_map_set (collArrangeByKey afun col) arranged
              (fun q => jfun q.2))
            next arrangements lookup_collection
      | some (.Local (.Map _)) => .error "StreamSemijoin: not a set arrangement"
      | some (.Foreign _) => .error "StreamSemijoin in nested scope"
      | none => .error "StreamSemijoin: arrangement not found"
  | .StreamXForm _ xf next =>
      match streamless_xform_collection false (calculus_differentiate col) xf
          (fun _ => none) (fun _ => none) with
      | .error e => .error e
      | .ok xformed =>
          xform_collection isTop (calculus_integrate xformed) next
            arrangements lookup_collection

/-- `Program::xform_arrangement` (shared by both modes; continuations run
streamless). -/
def xform_arrangement [DecidableEq V] (isTop : Bool) (arr : ArrTrace V)
    (x : XFormArrangement V) (arrangements : Arrangements V)
    (lookup_collection : RelId → Option (Coll V)) :
    Except String (Coll V) :=
  match x with
  | .FlatMap _ fmfun next =>
      streamless_xform_collection isTop (arrFlatMapRef fmfun arr) next
        arrangements lookup_collection
  | .FilterMap _ fmfun next =>
      streamless_xform_collection isTop (arrFilterMapRef fmfun arr) next
        arrangements lookup_collection
  | .Aggregate _ ffun aggfun next =>
      streamless_xform_collection isTop
        (arrValues (reduce_agg
          (match ffun with
           | none => arr
           | some f => arrFilter f arr) aggfun))
        next arrangements lookup_collection
  | .Join _ ffun arrangement jfun next =>
      match arrangements arrangement with
      | some (.Local (.Map arranged)) =>
          streamless_xform_collection isTop
            (join_core_map
              (match ffun with
               | none => arr
               | some f => arrFilter f arr) arranged jfun)
            next arrangements lookup_collection
      | some (.Foreign (.Map arranged)) =>
          streamless_xform_collection isTop
            (join_core_map
              (match ffun with
               | none => arr
               | some f => arrFilter f arr) arranged jfun)
            next arrangements lookup_collection
      | some _ => .error "Join: not a map arrangement"
      | none => .error "Join: arrangement not found"
  | .Semijoin _ ffun arrangement jfun next =>
      match arrangements arrangement with
      | some (.Local (.Set arranged)) =>
          streamless_xform_collection isTop
            (semijoin_core
              (match ffun with
               | none => arr
               | some f => arrFilter f arr) arranged jfun)
            next arrangements lookup_collection
      | some (.Foreign (.Set arranged)) =>
          streamless_xform_collection isTop
            (semijoin_core
              (match ffun with
               | none => arr
               | some f => arrFilter f arr) arranged jfun)
            next arrangements lookup_collection
      | some _ => .error "Semijoin: not a set arrangement"
      | none => .error "Semijoin: arrangement not found"
  | .Antijoin _ ffun arrangement next =>
      match arrangements arrangement with
      | some (.Local (.Set arranged)) =>
          streamless_xform_collection isTop
            (arrValues (antijoin_arranged
              (match ffun with
               | none => arr
               | some f => arrFilter f arr) arranged))
            next arrangements lookup_collection
      | some (.Foreign (.Set arranged)) =>
          streamless_xform_collection isTop
            (arrValues (antijoin_arranged
              (match ffun with
               | none => arr
               | some f => arrFilter f arr) arranged))
            next arrangements lookup_collection
      | some _ => .error "Antijoin: not a set arrangement"
      | none => .error "Antijoin: arrangement not found"
  | .StreamJoin _ ffun rel kfun jfun next =>
      match lookup_collection rel with
      | none => .error "xform_arrangement: unknown relation"
      | some c =>
          streamless_xform_collection isTop
            (lookup_map_map (collWithKeys kfun c)
              (match ffun with
               | none => arr
               | some f => arrFilter f arr)
              (fun q v2 => jfun v2 q.2))
            next arrangements lookup_collection
  | .StreamSemijoin _ ffun rel kfun jfun next =>
      match lookup_collection rel with
      | none => .error "xform_arrangement: unknown relation"
      | some c =>
          streamless_xform_collection isTop
            (lookup_map_keys (collFilterMap kfun c)
              (match ffun with
               | none => arr
               | some f => arrFilter f arr)
              (fun v2 => jfun v2))
            next arrangements lookup_collection

/-- `Program::streamless_xform_collection`. -/
def streamless_xform_collection [DecidableEq V] (isTop : Bool) (col : Coll V)
    (xform : Option (XFormCollection V)) (arrangements : Arrangements V)
    (lookup_collection : RelId → Option (Coll V)) :
    Except String (Coll V) :=
  match xform with
  | none => .ok col
  | some x =>
      streamless_xform_collection_ref isTop col x arrangements
        lookup_collection

/-- `Program::streamless_xform_collection_ref`: identical to the streamful
variant for every operator, except that `StreamXForm` is rejected. -/
def streamless_xform_collection_ref [DecidableEq V] (isTop : Bool)
    (col : Coll V) (x : XFormCollection V) (arrangements : Arrangements V)
    (lookup_collection : RelId → Option (Coll V)) :
    Except String (Coll V) :=
  match x with
  | .Arrange _ afun next =>
      xform_arrangement isTop (collArrangeByKey afun col) next arrangements
        lookup_collection
  | .Differentiate _ next =>
      if isTop then
        streamless_xform_collection isTop
          (collConcat col (collNegate (collDelay col))) next arrangements
          lookup_collection
      else .error "Differentiate operator used in recursive context"
  | .Map _ mfun next =>
      streamless_xform_collection isTop (collMap mfun col) next arrangements
        lookup_collection
  | .FlatMap _ fmfun next =>
      streamless_xform_collection isTop (collFlatMap fmfun col) next
        arrangements lookup_collection
  | .Filter _ ffun next =>
      streamless_xform_collection isTop (collFilter ffun col) next
        arrangements lookup_collection
  | .FilterMap _ fmfun next =>
      streamless_xform_collection isTop (collFilterMap fmfun col) next
        arrangements lookup_collection
  | .Inspect _ _ next =>
      streamless_xform_collection isTop col next arrangements
        lookup_collection
  | .StreamJoin _ afun arrangement jfun next =>
      match arrangements arrangement with
      | some (.Local (.Map arranged)) =>
          streamless_xform_collection isTop
            (lookup_map_map (collArrangeByKey afun col) arranged
              (fun q v2 => jfun q.2 v2))
            next arrangements lookup_collection
      | some (.Local (.Set _)) => .error "StreamJoin: not a map arrangement"
      | some (.Foreign _) => .error "StreamJoin in nested scope"
      | none => .error "StreamJoin: arrangement not found"
  | .StreamSemijoin _ afun arrangement jfun next =>
      match arrangements arrangement with
      | some (.Local (.Set arranged)) =>
          streamless_xform_collection isTop
            (lookup_map_set (collArrangeByKey afun col) arranged
              (fun q => jfun q.2))
            next arrangements lookup_collection
      | some (.Local (.Map _)) => .error "StreamSemijoin: not a set arrangement"
      | some (.Foreign _) => .error "StreamSemijoin in nested scope"
      | none => .error "StreamSemijoin: arrangement not found"
  | .StreamXForm _ _ _ => .error "StreamXForm in nested scope"

end

end CompilerFns

-- Does a chain contain a `StreamXForm` operator anywhere?
mutual
def XFormCollection.hasXForm : XFormCollection V → Bool
  | .Arrange _ _ next => next.hasXForm
  | .Differentiate _ next => optHasXForm next
  | .Map _ _ next => optHasXForm next
  | .FlatMap _ _ next => optHasXForm next
  | .Filter _ _ next => optHasXForm next
  | .FilterMap _ _ next => optHasXForm next
  | .Inspect _ _ next => optHasXForm next
  | .StreamJoin _ _ _ _ next => optHasXForm next
  | .StreamSemijoin _ _ _ _ next => optHasXForm next
  | .StreamXForm _ _ _ => true

def XFormArrangement.hasXForm : XFormArrangement V → Bool
  | .FlatMap _ _ next => optHasXForm next
  | .FilterMap _ _ next => optHasXForm next
  | .Aggregate _ _ _ next => optHasXForm next
  | .Join _ _ _ _ next => optHasXForm next
  | .Semijoin _ _ _ _ next => optHasXForm next
  | .Antijoin _ _ _ next => optHasXForm next
  | .StreamJoin _ _ _ _ _ next => optHasXForm next
  | .StreamSemijoin _ _ _ _ _ next => optHasXForm next

def optHasXForm : Option (XFormCollection V) → Bool
  | none => false
  | some x => x.hasXForm
end

section CompilerThms

variable [DecidableEq V]

-- Streamless compilation of any chain containing `StreamXForm` fails.
mutual

theorem streamless_ref_hasXForm_err (isTop : Bool) (col : Coll V)
    (x : XFormCollection V) (a : Arrangements V)
    (l : RelId → Option (Coll V)) (h : x.hasXForm = true) :
    (streamless_xform_collection_ref isTop col x a l).isOk = false := by
  cases x with
  | Arrange dbg afun next =>
      rw [streamless_xform_collection_ref]
      exact xform_arrangement_hasXForm_err isTop _ next a l
        (by simpa [XFormCollection.hasXForm] using h)
  | Differentiate dbg next =>
      rw [streamless_xform_collection_ref]
      by_cases ht : isTop
      · rw [if_pos ht]
        exact streamless_opt_hasXForm_err isTop _ next a l
          (by simpa [XFormCollection.hasXForm] using h)
      · rw [if_neg ht]
        rfl
  | Map dbg mfun next =>
      rw [streamless_xform_collection_ref]
      exact streamless_opt_hasXForm_err isTop _ next a l
        (by simpa [XFormCollection.hasXForm] using h)
  | FlatMap dbg fmfun next =>
      rw [streamless_xform_collection_ref]
      exact streamless_opt_hasXForm_err isTop _ next a l
        (by simpa [XFormCollection.hasXForm] using h)
  | Filter dbg ffun next =>
      rw [streamless_xform_collection_ref]
      exact streamless_opt_hasXForm_err isTop _ next a l
        (by simpa [XFormCollection.hasXForm] using h)
  | FilterMap dbg fmfun next =>
      rw [streamless_xform_collection_ref]
      exact streamless_opt_hasXForm_err isTop _ next a l
        (by simpa [XFormCollection.hasXForm] using h)
  | Inspect dbg ifun next =>
      rw [streamless_xform_collection_ref]
      exact streamless_opt_hasXForm_err isTop _ next a l
        (by simpa [XFormCollection.hasXForm] using h)
  | StreamJoin dbg afun arrangement jfun next =>
      rw [streamless_xform_collection_ref]
      cases harr : a arrangement with
      | none => rfl
      | some flavor =>
          cases flavor with
          | Local da =>
              cases da with
              | Map arranged =>
                  exact streamless_opt_hasXForm_err isTop _ next a l
                    (by simpa [XFormCollection.hasXForm] using h)
              | Set arranged => rfl
          | Foreign da => rfl
  | StreamSemijoin dbg afun arrangement jfun next =>
      rw [streamless_xform_collection_ref]
      cases harr : a arrangement with
      | none => rfl
      | some flavor =>
          cases flavor with
          | Local da =>
              cases da with
              | Map arranged => rfl
              | Set arranged =>
                  exact streamless_opt_hasXForm_err isTop _ next a l
                    (by simpa [XFormCollection.hasXForm] using h)
          | Foreign da => rfl
  | StreamXForm dbg xf next =>
      rw [streamless_xform_collection_ref]
      rfl

theorem streamless_opt_hasXForm_err (isTop : Bool) (col : Coll V)
    (ox : Option (XFormCollection V)) (a : Arrangements V)
    (l : RelId → Option (Coll V)) (h : optHasXForm ox = true) :
    (streamless_xform_collection isTop col ox a l).isOk = false := by
  cases ox with
  | none => simp [optHasXForm] at h
  | some x =>
      rw [streamless_xform_collection]
      exact streamless_ref_hasXForm_err isTop col x a l
        (by simpa [optHasXForm] using h)

theorem xform_arrangement_hasXForm_err (isTop : Bool) (arr : ArrTrace V)
    (x : XFormArrangement V) (a : Arrangements V)
    (l : RelId → Option (Coll V)) (h : x.hasXForm = true) :
    (xform_arrangement isTop arr x a l).isOk = false := by
  cases x with
  | FlatMap dbg fmfun next =>
      simp only [xform_arrangement.eq_def]
      exact streamless_opt_hasXForm_err isTop _ next a l
        (by simpa [XFormArrangement.hasXForm] using h)
  | FilterMap dbg fmfun next =>
      simp only [xform_arrangement.eq_def]
      exact streamless_opt_hasXForm_err isTop _ next a l
        (by simpa [XFormArrangement.hasXForm] using h)
  | Aggregate dbg ffun aggfun next =>
      simp only [xform_arrangement.eq_def]
      exact streamless_opt_hasXForm_err isTop _ next a l
        (by simpa [XFormArrangement.hasXForm] using h)
  | Join dbg ffun arrangement jfun next =>
      have hnext : optHasXForm next = true := by
        simpa [XFormArrangement.hasXForm] using h
      cases harr : a arrangement with
      | none => simp [xform_arrangement.eq_def, harr, Except.isOk, Except.toBool]
      | some flavor =>
          cases flavor with
          | Local da =>
              cases da with
              | Map arranged =>
                  simp only [xform_arrangement.eq_def, harr]
                  exact streamless_opt_hasXForm_err isTop _ next a l hnext
              | Set arranged => simp [xform_arrangement.eq_def, harr, Except.isOk, Except.toBool]
          | Foreign da =>
              cases da with
              | Map arranged =>
                  simp only [xform_arrangement.eq_def, harr]
                  exact streamless_opt_hasXForm_err isTop _ next a l hnext
              | Set arranged => simp [xform_arrangement.eq_def, harr, Except.isOk, Except.toBool]
  | Semijoin dbg ffun arrangement jfun next =>
      have hnext : optHasXForm next = true := by
        simpa [XFormArrangement.hasXForm] using h
      cases harr : a arrangement with
      | none => simp [xform_arrangement.eq_def, harr, Except.isOk, Except.toBool]
      | some flavor =>
          cases flavor with
          | Local da =>
              cases da with
              | Map arranged => simp [xform_arrangement.eq_def, harr, Except.isOk, Except.toBool]
              | Set arranged =>
                  simp only [xform_arrangement.eq_def, harr]
                  exact streamless_opt_hasXForm_err isTop _ next a l hnext
          | Foreign da =>
              cases da with
              | Map arranged => simp [xform_arrangement.eq_def, harr, Except.isOk, Except.toBool]
              | Set arranged =>
                  simp only [xform_arrangement.eq_def, harr]
                  exact streamless_opt_hasXForm_err isTop _ next a l hnext
  | Antijoin dbg ffun arrangement next =>
      have hnext : optHasXForm next = true := by
        simpa [XFormArrangement.hasXForm] using h
      cases harr : a arrangement with
      | none => simp [xform_arrangement.eq_def, harr, Except.isOk, Except.toBool]
      | some flavor =>
          cases flavor with
          | Local da =>
              cases da with
              | Map arranged => simp [xform_arrangement.eq_def, harr, Except.isOk, Except.toBool]
              | Set arranged =>
                  simp only [xform_arrangement.eq_def, harr]
                  exact streamless_opt_hasXForm_err isTop _ next a l hnext
          | Foreign da =>
              cases da with
              | Map arranged => simp [xform_arrangement.eq_def, harr, Except.isOk, Except.toBool]
              | Set arranged =>
                  simp only [xform_arrangement.eq_def, harr]
                  exact streamless_opt_hasXForm_err isTop _ next a l hnext
  | StreamJoin dbg ffun rel kfun jfun next =>
      have hnext : optHasXForm next = true := by
        simpa [XFormArrangement.hasXForm] using h
      cases hrel : l rel with
      | none => simp [xform_arrangement.eq_def, hrel, Except.isOk, Except.toBool]
      | some c =>
          simp only [xform_arrangement.eq_def, hrel]
          exact streamless_opt_hasXForm_err isTop _ next a l hnext
  | StreamSemijoin dbg ffun rel kfun jfun next =>
      have hnext : optHasXForm next = true := by
        simpa [XFormArrangement.hasXForm] using h
      cases hrel : l rel with
      | none => simp [xform_arrangement.eq_def, hrel, Except.isOk, Except.toBool]
      | some c =>
          simp only [xform_arrangement.eq_def, hrel]
          exact streamless_opt_hasXForm_err isTop _ next a l hnext

end

-- On chains without `StreamXForm`, streamful and streamless compilation
-- agree exactly.
mutual

theorem xform_ref_eq_streamless (isTop : Bool) (col : Coll V)
    (x : XFormCollection V) (a : Arrangements V)
    (l : RelId → Option (Coll V)) (h : x.hasXForm = false) :
    xform_collection_ref isTop col x a l =
      streamless_xform_collection_ref isTop col x a l := by
  cases x with
  | Arrange dbg afun next =>
      rw [xform_collection_ref, streamless_xform_collection_ref]
  | Differentiate dbg next =>
      rw [xform_collection_ref, streamless_xform_collection_ref]
      by_cases ht : isTop
      · rw [if_pos ht, if_pos ht]
        exact xform_opt_eq_streamless isTop _ next a l
          (by simpa [XFormCollection.hasXForm] using h)
      · rw [if_neg ht, if_neg ht]
  | Map dbg mfun next =>
      rw [xform_collection_ref, streamless_xform_collection_ref]
      exact xform_opt_eq_streamless isTop _ next a l
        (by simpa [XFormCollection.hasXForm] using h)
  | FlatMap dbg fmfun next =>
      rw [xform_collection_ref, streamless_xform_collection_ref]
      exact xform_opt_eq_streamless isTop _ next a l
        (by simpa [XFormCollection.hasXForm] using h)
  | Filter dbg ffun next =>
      rw [xform_collection_ref, streamless_xform_collection_ref]
      exact xform_opt_eq_streamless isTop _ next a l
        (by simpa [XFormCollection.hasXForm] using h)
  | FilterMap dbg fmfun next =>
      rw [xform_collection_ref, streamless_xform_collection_ref]
      exact xform_opt_eq_streamless isTop _ next a l
        (by simpa [XFormCollection.hasXForm] using h)
  | Inspect dbg ifun next =>
      rw [xform_collection_ref, streamless_xform_collection_ref]
      exact xform_opt_eq_streamless isTop _ next a l
        (by simpa [XFormCollection.hasXForm] using h)
  | StreamJoin dbg afun arrangement jfun next =>
      have hnext : optHasXForm next = false := by
        simpa [XFormCollection.hasXForm] using h
      cases harr : a arrangement with
      | none =>
          simp only [xform_collection_ref, streamless_xform_collection_ref,
            harr]
      | some flavor =>
          cases flavor with
          | Local da =>
              cases da with
              | Map arranged =>
                  simp only [xform_collection_ref,
                    streamless_xform_collection_ref, harr]
                  exact xform_opt_eq_streamless isTop _ next a l hnext
              | Set arranged =>
                  simp only [xform_collection_ref,
                    streamless_xform_collection_ref, harr]
          | Foreign da =>
              simp only [xform_collection_ref,
                streamless_xform_collection_ref, harr]
  | StreamSemijoin dbg afun arrangement jfun next =>
      have hnext : optHasXForm next = false := by
        simpa [XFormCollection.hasXForm] using h
      cases harr : a arrangement with
      | none =>
          simp only [xform_collection_ref, streamless_xform_collection_ref,
            harr]
      | some flavor =>
          cases flavor with
          | Local da =>
              cases da with
              | Map arranged =>
                  simp only [xform_collection_ref,
                    streamless_xform_collection_ref, harr]
              | Set arranged =>
                  simp only [xform_collection_ref,
                    streamless_xform_collection_ref, harr]
                  exact xform_opt_eq_streamless isTop _ next a l hnext
          | Foreign da =>
              simp only [xform_collection_ref,
                streamless_xform_collection_ref, harr]
  | StreamXForm dbg xf next =>
      simp [XFormCollection.hasXForm] at h

theorem xform_opt_eq_streamless (isTop : Bool) (col : Coll V)
    (ox : Option (XFormCollection V)) (a : Arrangements V)
    (l : RelId → Option (Coll V)) (h : optHasXForm ox = false) :
    xform_collection isTop col ox a l =
      streamless_xform_collection isTop col ox a l := by
  cases ox with
  | none => rw [xform_collection, streamless_xform_collection]
  | some x =>
      rw [xform_collection, streamless_xform_collection]
      exact xform_ref_eq_streamless isTop col x a l
        (by simpa [optHasXForm] using h)

end

/-- **C6.** In streamless mode (used inside SCCs and inside the nested
scope opened by `StreamXForm`): a `StreamXForm` operator is rejected with an
error, compiling any chain that contains a `StreamXForm` fails, and on
chains without `StreamXForm` every operator behaves identically to
streamful mode (`streamless_xform_collection_ref` agrees with
`xform_collection_ref` on the same scope, arrangements and collections). -/
theorem streamless_mode_semantics (isTop : Bool) (col : Coll V)
    (x : XFormCollection V) (a : Arrangements V)
    (l : RelId → Option (Coll V)) :
    (∀ (dbg : String) (xf next : Option (XFormCollection V)),
      streamless_xform_collection_ref isTop col
          (XFormCollection.StreamXForm dbg xf next) a l =
        .error "StreamXForm in nested scope") ∧
    (x.hasXForm = true →
      (streamless_xform_collection_ref isTop col x a l).isOk = false) ∧
    (x.hasXForm = false →
      xform_collection_ref isTop col x a l =
        streamless_xform_collection_ref isTop col x a l) := by
  refine ⟨?_, ?_, ?_⟩
  · intro dbg xf next
    rw [streamless_xform_collection_ref]
  · intro h
    exact streamless_ref_hasXForm_err isTop col x a l h
  · intro h
    exact xform_ref_eq_streamless isTop col x a l h

/-- Witness for `streamless_mode_semantics`: a chain holding a
`StreamXForm` behind a `Map` is rejected in streamless mode, and a plain
`Filter` chain compiles identically in the two modes. -/
theorem streamless_mode_semantics_witness :
    ((streamless_xform_collection_ref (V := Nat) true (fun _ => [])
        (XFormCollection.Map "m" (fun v => v)
          (some (XFormCollection.StreamXForm "s" none none)))
        (fun _ => none) (fun _ => none)).isOk = false) ∧
    (xform_collection_ref (V := Nat) true (fun _ => [])
        (XFormCollection.Filter "f" (fun _ => true) none)
        (fun _ => none) (fun _ => none) =
      streamless_xform_collection_ref (V := Nat) true (fun _ => [])
        (XFormCollection.Filter "f" (fun _ => true) none)
        (fun _ => none) (fun _ => none)) := by
  constructor
  · exact (streamless_mode_semantics (V := Nat) true (fun _ => [])
      (XFormCollection.Map "m" (fun v => v)
        (some (XFormCollection.StreamXForm "s" none none)))
      (fun _ => none) (fun _ => none)).2.1 rfl
  · exact (streamless_mode_semantics (V := Nat) true (fun _ => [])
      (XFormCollection.Filter "f" (fun _ => true) none)
      (fun _ => none) (fun _ => none)).2.2 rfl

end CompilerThms

end Compiler

end DDlog
